import Mathlib

/-!
Verification of the SSE proxy core of the `openchamber` session editor panel
(`SessionEditorPanelProvider` and its helper functions).

The TypeScript source is embedded shallowly:
* strings are modelled as `List Char` (the decoded text stream; the byte to
  text decoding with partial multi-byte sequences is the external
  `TextDecoder` collaborator and is not re-modelled);
* parsed JSON values are modelled by the mutual inductive `Json`;
* the JavaScript builtins used by the source (`String.prototype.split`,
  `trim`, `replace`, `JSON.parse`, `JSON.stringify`, object spread and
  property access) are modelled by executable functions with the semantics
  the ECMAScript and JSON standards give them;
* the stateful parts (panel registry, abort controllers, interval timers,
  the relay read loop) are modelled as explicit state passing.
-/

/-! ## JavaScript character classes and string helpers -/

/-- The ECMAScript whitespace class: the characters matched by the regular
expression class `\s` and stripped by `String.prototype.trim`
(WhiteSpace ∪ LineTerminator). -/
def isJsSpace (c : Char) : Bool :=
  c == ' ' || c == '\t' || c == '\n' || c == '\r' || c == '\x0b' || c == '\x0c' ||
  c.val == 0xa0 || c.val == 0x1680 || (0x2000 ≤ c.val && c.val ≤ 0x200a) ||
  c.val == 0x2028 || c.val == 0x2029 || c.val == 0x202f || c.val == 0x205f ||
  c.val == 0x3000 || c.val == 0xfeff

/-- The JSON grammar's insignificant whitespace: space, tab, line feed,
carriage return.  Note this is strictly smaller than `isJsSpace`. -/
def isJsonWs (c : Char) : Bool :=
  c == ' ' || c == '\t' || c == '\n' || c == '\r'

/-- `String.prototype.trim`: drop `isJsSpace` characters from both ends. -/
def jsTrim (s : List Char) : List Char :=
  ((s.dropWhile isJsSpace).reverse.dropWhile isJsSpace).reverse

/-- Prefix test on character lists (`String.prototype.startsWith`). -/
def hasPrefixChars : List Char → List Char → Bool
  | [], _ => true
  | _ :: _, [] => false
  | p :: ps, c :: cs => p == c && hasPrefixChars ps cs

/-- Helper for `splitOnChar`: prepend a character to the first part. -/
def consHead (c : Char) : List (List Char) → List (List Char)
  | [] => [[c]]
  | b :: bs => (c :: b) :: bs

/-- `String.prototype.split` with a single-character separator: splits at
every occurrence, keeping empty parts (so the result is never empty). -/
def splitOnChar (sep : Char) : List Char → List (List Char)
  | [] => [[]]
  | c :: rest => if c = sep then [] :: splitOnChar sep rest else consHead c (splitOnChar sep rest)

/-- `Array.prototype.join("\n")`. -/
def joinNl : List (List Char) → List Char
  | [] => []
  | [x] => x
  | x :: xs => x ++ '\n' :: joinNl xs

/-- `String.prototype.split("\n\n")`: split at each non-overlapping
occurrence of two consecutive newline characters, scanning left to right. -/
def splitBlocks : List Char → List (List Char)
  | [] => [[]]
  | [c] => [[c]]
  | c1 :: c2 :: rest =>
    if c1 = '\n' ∧ c2 = '\n' then [] :: splitBlocks rest
    else consHead c1 (splitBlocks (c2 :: rest))

/-- `String.prototype.replace(/\r\n/g, "\n")`: rewrite each non-overlapping
occurrence of CR LF to LF, scanning left to right. -/
def normalizeCRLF : List Char → List Char
  | [] => []
  | [c] => [c]
  | c1 :: c2 :: rest =>
    if c1 = '\r' ∧ c2 = '\n' then '\n' :: normalizeCRLF rest
    else c1 :: normalizeCRLF (c2 :: rest)

/-- Serialize a list of blocks the way the relay loop does:
`blocks.map(b => b + "\n\n").join("")`. -/
def terminateBlocks (bs : List (List Char)) : List Char :=
  (bs.map (fun b => b ++ ['\n', '\n'])).flatten

/-- `"\n\n"`-intercalation, the inverse of `splitBlocks`. -/
def joinBlocks : List (List Char) → List Char
  | [] => []
  | [x] => x
  | x :: xs => x ++ '\n' :: '\n' :: joinBlocks xs

/-! ## Parsed JSON values

`Json` models the values `JSON.parse` can return.  Numbers keep their
source lexeme (the claims under verification never depend on numeric
value semantics, only on the token).  Object fields are kept in insertion
order with unique keys, as a JavaScript object built by `JSON.parse` has. -/

mutual

inductive Json where
  | null
  | bool (b : Bool)
  | num (lexeme : List Char)
  | str (s : List Char)
  | arr (elems : JsonItems)
  | obj (fields : JsonMembers)
deriving Repr

inductive JsonItems where
  | nil
  | cons (head : Json) (tail : JsonItems)
deriving Repr

inductive JsonMembers where
  | nil
  | cons (key : List Char) (value : Json) (tail : JsonMembers)
deriving Repr

end

def JsonItems.toList : JsonItems → List Json
  | .nil => []
  | .cons e tl => e :: tl.toList

def JsonMembers.toList : JsonMembers → List (List Char × Json)
  | .nil => []
  | .cons k v tl => (k, v) :: tl.toList

def JsonMembers.keys : JsonMembers → List (List Char)
  | .nil => []
  | .cons k _ tl => k :: tl.keys

/-- Field lookup on an object with unique keys (first match). -/
def JsonMembers.lookup : JsonMembers → List Char → Option Json
  | .nil, _ => none
  | .cons k v tl, key => if k = key then some v else tl.lookup key

/-- JavaScript property access `value[key]` on a parsed-JSON value, for the
plain data keys this code reads (`type`, `properties`, `status`,
`sessionID`, `sessionId`, `info`, `role`, `finish`, `payload`): only a
plain object can carry them; on arrays and primitives the access yields
`undefined` (`none`). -/
def Json.getProp (j : Json) (key : List Char) : Option Json :=
  match j with
  | .obj fs => fs.lookup key
  | _ => none

/-- `value && typeof value === "object"` for a parsed-JSON value: true
exactly for objects and arrays (JavaScript arrays have typeof `object`;
`null` is excluded by the truthiness check). -/
def Json.isObjLike : Json → Bool
  | .arr _ => true
  | .obj _ => true
  | _ => false

/-- Nullish test: `undefined` (`none`) or `null`. -/
def nullish (v : Option Json) : Bool :=
  match v with
  | none => true
  | some .null => true
  | some _ => false

/-- The nullish-coalescing operator `a ?? b`. -/
def jsCoalesce (a b : Option Json) : Option Json :=
  if nullish a then b else a

/-- JavaScript object-field assignment `o[k] = v` as used by `JSON.parse`
on a duplicate key: if the key exists its value is replaced in place,
otherwise the field is appended. -/
def JsonMembers.setKey : JsonMembers → List Char → Json → JsonMembers
  | .nil, k, v => .cons k v .nil
  | .cons k' v' tl, k, v =>
    if k' = k then .cons k' v tl else .cons k' v' (tl.setKey k v)

def JsonMembers.canonAux : JsonMembers → JsonMembers → JsonMembers
  | acc, .nil => acc
  | acc, .cons k v tl => JsonMembers.canonAux (acc.setKey k v) tl

/-- Build the object `JSON.parse` builds from a textual member list:
assign each member left to right, later duplicate keys overwriting
earlier values in place. -/
def JsonMembers.canon (ms : JsonMembers) : JsonMembers :=
  JsonMembers.canonAux .nil ms

/-! ## `JSON.stringify` -/

/-- One digit of a lowercase hexadecimal `\u00XX` escape. -/
def hexDigit : Nat → Char
  | 0 => '0' | 1 => '1' | 2 => '2' | 3 => '3' | 4 => '4'
  | 5 => '5' | 6 => '6' | 7 => '7' | 8 => '8' | 9 => '9'
  | 10 => 'a' | 11 => 'b' | 12 => 'c' | 13 => 'd' | 14 => 'e'
  | _ => 'f'

/-- `JSON.stringify` escaping of one character inside a string literal:
quote and backslash are escaped, the named control escapes are used where
they exist, any other control character becomes `\u00XX`, and every other
character is emitted verbatim. -/
def escChar (c : Char) : List Char :=
  if c = '"' then ['\\', '"']
  else if c = '\\' then ['\\', '\\']
  else if c = '\x08' then ['\\', 'b']
  else if c = '\x0c' then ['\\', 'f']
  else if c = '\n' then ['\\', 'n']
  else if c = '\r' then ['\\', 'r']
  else if c = '\t' then ['\\', 't']
  else if c.val < 0x20 then ['\\', 'u', '0', '0', hexDigit (c.val.toNat / 16), hexDigit (c.val.toNat % 16)]
  else [c]

/-- `JSON.stringify` of a string value. -/
def stringifyStr (s : List Char) : List Char :=
  '"' :: s.flatMap escChar ++ ['"']

mutual

/-- `JSON.stringify` of a parsed-JSON value (no indentation argument).
A numeric lexeme is emitted verbatim; the source never stringifies a
non-integral number, so the double-formatting of the JavaScript runtime
does not need to be re-modelled. -/
def Json.stringify : Json → List Char
  | .null => "null".data
  | .bool true => "true".data
  | .bool false => "false".data
  | .num t => t
  | .str s => stringifyStr s
  | .arr es => '[' :: es.stringifyItems ++ [']']
  | .obj fs => '\x7b' :: fs.stringifyMembers ++ ['\x7d']

def JsonItems.stringifyItems : JsonItems → List Char
  | .nil => []
  | .cons e .nil => e.stringify
  | .cons e (.cons e2 tl) => e.stringify ++ ',' :: (JsonItems.cons e2 tl).stringifyItems

def JsonMembers.stringifyMembers : JsonMembers → List Char
  | .nil => []
  | .cons k v .nil => stringifyStr k ++ ':' :: v.stringify
  | .cons k v (.cons k2 v2 tl) =>
    (stringifyStr k ++ ':' :: v.stringify) ++ ',' :: (JsonMembers.cons k2 v2 tl).stringifyMembers

end

/-! ## `JSON.parse`

A fuel-indexed recursive-descent parser for the JSON grammar, faithful to
`JSON.parse`: literal keywords, strings with the JSON escape set (a
`\uXXXX` escape for a surrogate code unit, which `List Char` cannot
represent, is the one unmodelled corner; no claim touches it), numbers by
maximal munch over number characters followed by a grammar check, arrays
and objects with insignificant whitespace, trailing whitespace only. -/

/-- Hexadecimal digit value (both cases accepted, as in JSON). -/
def hexVal (c : Char) : Option Nat :=
  if '0' ≤ c ∧ c ≤ '9' then some (c.toNat - 48)
  else if 'a' ≤ c ∧ c ≤ 'f' then some (c.toNat - 87)
  else if 'A' ≤ c ∧ c ≤ 'F' then some (c.toNat - 55)
  else none

def skipWs (cs : List Char) : List Char :=
  cs.dropWhile isJsonWs

/-- Body of a JSON string literal, after the opening quote: accumulate
characters (in reverse) until the closing quote; reject raw control
characters and unknown escapes, as `JSON.parse` does. -/
def parseStrBody : List Char → List Char → Option (List Char × List Char)
  | _, [] => none
  | acc, c :: rest =>
    if c = '"' then some (acc.reverse, rest)
    else if c = '\\' then
      match rest with
      | [] => none
      | e :: rest2 =>
        if e = '"' then parseStrBody ('"' :: acc) rest2
        else if e = '\\' then parseStrBody ('\\' :: acc) rest2
        else if e = '/' then parseStrBody ('/' :: acc) rest2
        else if e = 'b' then parseStrBody ('\x08' :: acc) rest2
        else if e = 'f' then parseStrBody ('\x0c' :: acc) rest2
        else if e = 'n' then parseStrBody ('\n' :: acc) rest2
        else if e = 'r' then parseStrBody ('\r' :: acc) rest2
        else if e = 't' then parseStrBody ('\t' :: acc) rest2
        else if e = 'u' then
          match rest2 with
          | h1 :: h2 :: h3 :: h4 :: rest3 =>
            match hexVal h1, hexVal h2, hexVal h3, hexVal h4 with
            | some a, some b, some c2, some d =>
              parseStrBody (Char.ofNat (4096 * a + 256 * b + 16 * c2 + d) :: acc) rest3
            | _, _, _, _ => none
          | _ => none
        else none
    else if c.val < 0x20 then none
    else parseStrBody (c :: acc) rest

/-- Decimal digit (the JSON `DIGIT` class). -/
def isDigitCh (c : Char) : Bool :=
  c == '0' || c == '1' || c == '2' || c == '3' || c == '4' ||
  c == '5' || c == '6' || c == '7' || c == '8' || c == '9'

/-- The characters a JSON number token is made of. -/
def isNumChar (c : Char) : Bool :=
  isDigitCh c || c == '-' || c == '+' || c == '.' || c == 'e' || c == 'E'

/-- Consume the integer part of a JSON number: `0`, or a nonzero digit
followed by digits. -/
def chompInt : List Char → Option (List Char)
  | [] => none
  | c :: t =>
    if c = '0' then some t
    else if isDigitCh c then some (t.dropWhile isDigitCh) else none

/-- Consume an optional fraction part: `.` followed by one or more digits. -/
def chompFrac : List Char → Option (List Char)
  | [] => some []
  | c :: t =>
    if c = '.' then (if t.takeWhile isDigitCh = [] then none else some (t.dropWhile isDigitCh))
    else some (c :: t)

/-- Consume an optional leading sign of an exponent. -/
def chompSign : List Char → List Char
  | [] => []
  | s :: t => if s = '+' ∨ s = '-' then t else s :: t

/-- Require one or more digits and consume them. -/
def chompDigits (t2 : List Char) : Option (List Char) :=
  if t2.takeWhile isDigitCh = [] then none else some (t2.dropWhile isDigitCh)

/-- Consume an optional exponent part: `e`/`E`, optional sign, digits. -/
def chompExp : List Char → Option (List Char)
  | [] => some []
  | c :: t =>
    if c = 'e' ∨ c = 'E' then chompDigits (chompSign t)
    else some (c :: t)

/-- Consume an optional leading minus sign. -/
def chompMinus : List Char → List Char
  | [] => []
  | c :: t => if c = '-' then t else c :: t

/-- The JSON number grammar: optional minus, integer part, optional
fraction, optional exponent, nothing else. -/
def validNum (cs : List Char) : Bool :=
  match (chompInt (chompMinus cs)).bind (fun r1 => (chompFrac r1).bind chompExp) with
  | some r3 => r3 = ([] : List Char)
  | none => false

/-- Array items after the first one: each is preceded by a comma; a
closing bracket ends the list.  `pv` parses one value (it is instantiated
with `parseValue` at a fixed fuel). -/
def parseItemsRest (pv : List Char → Option (Json × List Char)) : Nat → List Char → Option (JsonItems × List Char)
  | 0, _ => none
  | f + 1, cs =>
    (pv cs).bind (fun er =>
      match skipWs er.2 with
      | [] => none
      | d :: r2 =>
        if d = ',' then
          (parseItemsRest pv f r2).bind (fun esr => some (.cons er.1 esr.1, esr.2))
        else if d = ']' then some (.cons er.1 .nil, r2)
        else none)

/-- Array items after the opening bracket: either an immediate closing
bracket (empty array) or one or more comma-separated items. -/
def parseItems (pv : List Char → Option (Json × List Char)) (f : Nat) (cs : List Char) : Option (JsonItems × List Char) :=
  match skipWs cs with
  | [] => none
  | c :: rest => if c = ']' then some (.nil, rest) else parseItemsRest pv f (c :: rest)

/-- Object members after the first one, in textual order (duplicate keys
are resolved afterwards by `JsonMembers.canon`). -/
def parseMembersRest (pv : List Char → Option (Json × List Char)) : Nat → List Char → Option (JsonMembers × List Char)
  | 0, _ => none
  | f + 1, cs =>
    match skipWs cs with
    | [] => none
    | c :: rest =>
      if c = '"' then
        (parseStrBody [] rest).bind (fun kr =>
          match skipWs kr.2 with
          | [] => none
          | d :: r2 =>
            if d = ':' then
              (pv r2).bind (fun vr =>
                match skipWs vr.2 with
                | [] => none
                | d2 :: r4 =>
                  if d2 = ',' then
                    (parseMembersRest pv f r4).bind
                      (fun msr => some (.cons kr.1 vr.1 msr.1, msr.2))
                  else if d2 = '\x7d' then some (.cons kr.1 vr.1 .nil, r4)
                  else none)
            else none)
      else none

/-- Object members after the opening brace: either an immediate closing
brace (empty object) or one or more comma-separated members. -/
def parseMembers (pv : List Char → Option (Json × List Char)) (f : Nat) (cs : List Char) : Option (JsonMembers × List Char) :=
  match skipWs cs with
  | [] => none
  | c :: rest => if c = '\x7d' then some (.nil, rest) else parseMembersRest pv f (c :: rest)

/-- One JSON value, by recursive descent with explicit fuel. -/
def parseValue : Nat → List Char → Option (Json × List Char)
  | 0, _ => none
  | f + 1, cs =>
    if hasPrefixChars "null".data (skipWs cs) then some (.null, (skipWs cs).drop 4)
    else if hasPrefixChars "true".data (skipWs cs) then some (.bool true, (skipWs cs).drop 4)
    else if hasPrefixChars "false".data (skipWs cs) then some (.bool false, (skipWs cs).drop 5)
    else
      match skipWs cs with
      | [] => none
      | c :: rest =>
        if c = '"' then
          (parseStrBody [] rest).bind (fun p => some (.str p.1, p.2))
        else if c = '[' then
          (parseItems (parseValue f) f rest).bind (fun p => some (.arr p.1, p.2))
        else if c = '\x7b' then
          (parseMembers (parseValue f) f rest).bind (fun p => some (.obj p.1.canon, p.2))
        else
          if validNum ((c :: rest).takeWhile isNumChar) then
            some (.num ((c :: rest).takeWhile isNumChar), (c :: rest).dropWhile isNumChar)
          else none

/-- `JSON.parse`: parse one value, then allow only trailing JSON
whitespace.  The fuel `cs.length + 2` dominates the recursion depth of any
successful parse, since every recursive step consumes at least one input
character. -/
def jsonParse (cs : List Char) : Option Json :=
  match parseValue (cs.length + 2) cs with
  | some (j, rest) => if skipWs rest = [] then some j else none
  | none => none

example : jsonParse "\x7b\"a\":1\x7d".data
    = some (.obj (.cons ['a'] (.num ['1']) .nil)) := rfl

example : jsonParse " [1e3, \"a\\n\", null, \x7b\x7d, [], true] ".data
    = some (.arr (.cons (.num ['1', 'e', '3'])
        (.cons (.str ['a', '\n'])
          (.cons .null
            (.cons (.obj .nil)
              (.cons (.arr .nil) (.cons (.bool true) .nil))))))) := rfl

example : jsonParse "not json".data = none := rfl

example : jsonParse "\x7b\"a\":1,\"b\":2,\"a\":3\x7d".data
    = some (.obj (.cons ['a'] (.num ['3']) (.cons ['b'] (.num ['2']) .nil))) := rfl

example : jsonParse "01".data = none := rfl

example : jsonParse "[1,]".data = none := rfl

example : jsonParse "\"\\u0041\"".data = some (.str ['A']) := rfl

/-! ## Well-formed parsed values

`Json.wf` holds of every value `jsonParse` can produce: numeric lexemes
match the JSON number grammar and object keys are unique.  It is the
precondition of the stringify/parse round trip. -/

mutual

def Json.wf : Json → Bool
  | .null => true
  | .bool _ => true
  | .num t => validNum t && t.all isNumChar
  | .str _ => true
  | .arr es => es.wfItems
  | .obj fs => fs.wfMembers && decide fs.keys.Nodup

def JsonItems.wfItems : JsonItems → Bool
  | .nil => true
  | .cons e tl => e.wf && tl.wfItems

def JsonMembers.wfMembers : JsonMembers → Bool
  | .nil => true
  | .cons _ v tl => v.wf && tl.wfMembers

end

def JsonItems.count : JsonItems → Nat
  | .nil => 0
  | .cons _ tl => tl.count + 1

def JsonMembers.count : JsonMembers → Nat
  | .nil => 0
  | .cons _ _ tl => tl.count + 1

/-! ## Size lemmas for the mutual induction -/

theorem sizeOf_mem_items : ∀ {es : JsonItems} {e : Json}, e ∈ es.toList → sizeOf e < sizeOf es
  | .nil, e, h => by simp [JsonItems.toList] at h
  | .cons hd tl, e, h => by
    simp only [JsonItems.toList, List.mem_cons] at h
    rcases h with h | h
    · subst h; simp; omega
    · have := sizeOf_mem_items h; simp; omega

theorem sizeOf_mem_members : ∀ {fs : JsonMembers} {k : List Char} {v : Json},
    (k, v) ∈ fs.toList → sizeOf v < sizeOf fs
  | .nil, k, v, h => by simp [JsonMembers.toList] at h
  | .cons k2 v2 tl, k, v, h => by
    simp only [JsonMembers.toList, List.mem_cons, Prod.mk.injEq] at h
    rcases h with ⟨_, h2⟩ | h
    · subst h2; simp; omega
    · have := sizeOf_mem_members h; simp; omega

/-! ## Character-class lemmas -/

theorem isDigitCh_vals {c : Char} (h : isDigitCh c = true) :
    c = '0' ∨ c = '1' ∨ c = '2' ∨ c = '3' ∨ c = '4' ∨
    c = '5' ∨ c = '6' ∨ c = '7' ∨ c = '8' ∨ c = '9' := by
  simp only [isDigitCh, Bool.or_eq_true, beq_iff_eq] at h
  tauto

theorem isJsonWs_false_of_digit {c : Char} (h : isDigitCh c = true) : isJsonWs c = false := by
  rcases isDigitCh_vals h with rfl|rfl|rfl|rfl|rfl|rfl|rfl|rfl|rfl|rfl <;> rfl

theorem skipWs_nil : skipWs [] = [] := rfl

theorem skipWs_cons_of_not_ws {c : Char} (h : isJsonWs c = false) (cs : List Char) :
    skipWs (c :: cs) = c :: cs := by
  simp [skipWs, List.dropWhile_cons, h]

theorem hasPrefixChars_false_of_ne {p c : Char} {ps cs : List Char} (h : p ≠ c) :
    hasPrefixChars (p :: ps) (c :: cs) = false := by
  simp [hasPrefixChars, h]

theorem hasPrefixChars_append (p t : List Char) : hasPrefixChars p (p ++ t) = true := by
  induction p with
  | nil => rfl
  | cons c cs ih => simp [hasPrefixChars, ih]

/-! ## String-literal round trip -/

theorem hexVal_hexDigit {k : Nat} (h : k < 16) : hexVal (hexDigit k) = some k := by
  interval_cases k <;> rfl

theorem parseStrBody_rt : ∀ (s acc rest : List Char),
    parseStrBody acc (s.flatMap escChar ++ '"' :: rest) = some (acc.reverse ++ s, rest) := by
  intro s
  induction s with
  | nil =>
    intro acc rest
    show parseStrBody acc ('"' :: rest) = _
    rw [parseStrBody.eq_def]
    simp
  | cons c s ih =>
    intro acc rest
    have hflat : (c :: s).flatMap escChar = escChar c ++ s.flatMap escChar := by
      simp [List.flatMap_cons]
    rw [hflat, List.append_assoc]
    by_cases h1 : c = '"'
    · subst h1
      have hstep : ∀ a z, parseStrBody a ('\\' :: '"' :: z) = parseStrBody ('"' :: a) z := by
        intro a z; rw [parseStrBody.eq_def]; rfl
      show parseStrBody acc ('\\' :: '"' :: (s.flatMap escChar ++ '"' :: rest)) = _
      rw [hstep, ih]
      simp
    by_cases h2 : c = '\\'
    · subst h2
      have hstep : ∀ a z, parseStrBody a ('\\' :: '\\' :: z) = parseStrBody ('\\' :: a) z := by
        intro a z; rw [parseStrBody.eq_def]; rfl
      show parseStrBody acc ('\\' :: '\\' :: (s.flatMap escChar ++ '"' :: rest)) = _
      rw [hstep, ih]
      simp
    by_cases h3 : c = '\x08'
    · subst h3
      have hstep : ∀ a z, parseStrBody a ('\\' :: 'b' :: z) = parseStrBody ('\x08' :: a) z := by
        intro a z; rw [parseStrBody.eq_def]; rfl
      show parseStrBody acc ('\\' :: 'b' :: (s.flatMap escChar ++ '"' :: rest)) = _
      rw [hstep, ih]
      simp
    by_cases h4 : c = '\x0c'
    · subst h4
      have hstep : ∀ a z, parseStrBody a ('\\' :: 'f' :: z) = parseStrBody ('\x0c' :: a) z := by
        intro a z; rw [parseStrBody.eq_def]; rfl
      show parseStrBody acc ('\\' :: 'f' :: (s.flatMap escChar ++ '"' :: rest)) = _
      rw [hstep, ih]
      simp
    by_cases h5 : c = '\n'
    · subst h5
      have hstep : ∀ a z, parseStrBody a ('\\' :: 'n' :: z) = parseStrBody ('\n' :: a) z := by
        intro a z; rw [parseStrBody.eq_def]; rfl
      show parseStrBody acc ('\\' :: 'n' :: (s.flatMap escChar ++ '"' :: rest)) = _
      rw [hstep, ih]
      simp
    by_cases h6 : c = '\r'
    · subst h6
      have hstep : ∀ a z, parseStrBody a ('\\' :: 'r' :: z) = parseStrBody ('\r' :: a) z := by
        intro a z; rw [parseStrBody.eq_def]; rfl
      show parseStrBody acc ('\\' :: 'r' :: (s.flatMap escChar ++ '"' :: rest)) = _
      rw [hstep, ih]
      simp
    by_cases h7 : c = '\t'
    · subst h7
      have hstep : ∀ a z, parseStrBody a ('\\' :: 't' :: z) = parseStrBody ('\t' :: a) z := by
        intro a z; rw [parseStrBody.eq_def]; rfl
      show parseStrBody acc ('\\' :: 't' :: (s.flatMap escChar ++ '"' :: rest)) = _
      rw [hstep, ih]
      simp
    by_cases h8 : c.val < 0x20
    · have hesc : escChar c =
          ['\\', 'u', '0', '0', hexDigit (c.val.toNat / 16), hexDigit (c.val.toNat % 16)] := by
        rw [escChar, if_neg h1, if_neg h2, if_neg h3, if_neg h4, if_neg h5, if_neg h6, if_neg h7,
          if_pos h8]
      rw [hesc]
      have hlt : c.val.toNat < 32 := h8
      have hq : c.val.toNat / 16 < 16 := by omega
      have hm : c.val.toNat % 16 < 16 := by omega
      have hstep : ∀ (a z : List Char), parseStrBody a ('\\' :: 'u' :: '0' :: '0' ::
          hexDigit (c.val.toNat / 16) :: hexDigit (c.val.toNat % 16) :: z)
          = parseStrBody (Char.ofNat (4096 * 0 + 256 * 0 + 16 * (c.val.toNat / 16) +
              c.val.toNat % 16) :: a) z := by
        intro a z
        rw [parseStrBody.eq_def]
        simp only [hexVal_hexDigit hq, hexVal_hexDigit hm]
        rfl
      have hchar : Char.ofNat (4096 * 0 + 256 * 0 + 16 * (c.val.toNat / 16) + c.val.toNat % 16)
          = c := by
        rw [show 4096 * 0 + 256 * 0 + 16 * (c.val.toNat / 16) + c.val.toNat % 16 = c.toNat by
          show _ = c.val.toNat
          omega]
        exact Char.ofNat_toNat c
      show parseStrBody acc ('\\' :: 'u' :: '0' :: '0' :: hexDigit (c.val.toNat / 16) ::
        hexDigit (c.val.toNat % 16) :: (s.flatMap escChar ++ '"' :: rest)) = _
      rw [hstep, hchar, ih]
      simp
    · have hesc : escChar c = [c] := by
        rw [escChar, if_neg h1, if_neg h2, if_neg h3, if_neg h4, if_neg h5, if_neg h6, if_neg h7,
          if_neg h8]
      rw [hesc]
      have hstep : parseStrBody acc (c :: (s.flatMap escChar ++ '"' :: rest))
          = parseStrBody (c :: acc) (s.flatMap escChar ++ '"' :: rest) := by
        rw [parseStrBody.eq_def]
        show (if c = '"' then some (acc.reverse, s.flatMap escChar ++ '"' :: rest)
          else if c = '\\' then _
          else if c.val < 0x20 then none
          else parseStrBody (c :: acc) (s.flatMap escChar ++ '"' :: rest)) = _
        rw [if_neg h1, if_neg h2, if_neg h8]
      show parseStrBody acc (c :: (s.flatMap escChar ++ '"' :: rest)) = _
      rw [hstep, ih]
      simp

/-! ## Number-token lemmas -/

theorem isNumChar_of_digit {c : Char} (h : isDigitCh c = true) : isNumChar c = true := by
  simp [isNumChar, h]

theorem takeWhile_append_of_all {p : Char → Bool} :
    ∀ (t rest : List Char), (∀ c ∈ t, p c = true) →
      (∀ c, rest.head? = some c → p c = false) →
      (t ++ rest).takeWhile p = t ∧ (t ++ rest).dropWhile p = rest := by
  intro t
  induction t with
  | nil =>
    intro rest _ hrest
    cases rest with
    | nil => simp
    | cons c rs =>
      have := hrest c rfl
      simp [List.takeWhile_cons, List.dropWhile_cons, this]
  | cons c t ih =>
    intro rest hall hrest
    have hc : p c = true := hall c (List.mem_cons_self c t)
    have ht := ih rest (fun d hd => hall d (List.mem_cons_of_mem c hd)) hrest
    simp [List.takeWhile_cons, List.dropWhile_cons, hc, ht.1, ht.2]

theorem span_append_of_all {p : Char → Bool} (t rest : List Char)
    (hall : ∀ c ∈ t, p c = true)
    (hrest : ∀ c, rest.head? = some c → p c = false) :
    (t ++ rest).span p = (t, rest) := by
  have := takeWhile_append_of_all t rest hall hrest
  simp [List.span_eq_take_drop, this.1, this.2]

theorem all_takeWhile {p : Char → Bool} : ∀ (l : List Char), ∀ c ∈ l.takeWhile p, p c = true := by
  intro l
  induction l with
  | nil => intro c h; simp at h
  | cons d t ih =>
    intro c h
    rw [List.takeWhile_cons] at h
    by_cases hd : p d
    · simp [hd] at h
      rcases h with h | h
      · subst h; exact hd
      · exact ih c h
    · simp [hd] at h

theorem chompInt_consumed : ∀ {cs r : List Char}, chompInt cs = some r →
    ∃ t, cs = t ++ r ∧ ∀ c ∈ t, isNumChar c = true := by
  intro cs r h
  cases cs with
  | nil => simp [chompInt] at h
  | cons c t =>
    simp only [chompInt.eq_def] at h
    by_cases h0 : c = '0'
    · rw [if_pos h0] at h
      cases h
      exact ⟨[c], by simp [h0], by intro d hd; simp at hd; subst hd; subst h0; rfl⟩
    · rw [if_neg h0] at h
      by_cases hdig : isDigitCh c = true
      · rw [if_pos hdig] at h
        cases h
        refine ⟨c :: t.takeWhile isDigitCh, ?_, ?_⟩
        · simp [List.takeWhile_append_dropWhile]
        · intro d hd
          rcases List.mem_cons.mp hd with h | h
          · subst h; exact isNumChar_of_digit hdig
          · exact isNumChar_of_digit (all_takeWhile t d h)
      · rw [if_neg hdig] at h
        cases h

theorem chompFrac_consumed : ∀ {cs r : List Char}, chompFrac cs = some r →
    ∃ t, cs = t ++ r ∧ ∀ c ∈ t, isNumChar c = true := by
  intro cs r h
  cases cs with
  | nil =>
    simp [chompFrac] at h
    subst h
    exact ⟨[], rfl, by simp⟩
  | cons c t =>
    simp only [chompFrac.eq_def] at h
    by_cases hdot : c = '.'
    · rw [if_pos hdot] at h
      by_cases hnil : t.takeWhile isDigitCh = []
      · rw [if_pos hnil] at h; cases h
      · rw [if_neg hnil] at h
        cases h
        refine ⟨c :: t.takeWhile isDigitCh, ?_, ?_⟩
        · simp [List.takeWhile_append_dropWhile]
        · intro d hd
          rcases List.mem_cons.mp hd with h | h
          · subst h; subst hdot; rfl
          · exact isNumChar_of_digit (all_takeWhile t d h)
    · rw [if_neg hdot] at h
      cases h
      exact ⟨[], rfl, by simp⟩

theorem chompSign_consumed : ∀ (t : List Char),
    ∃ s, t = s ++ chompSign t ∧ ∀ c ∈ s, isNumChar c = true := by
  intro t
  cases t with
  | nil => exact ⟨[], rfl, by simp⟩
  | cons s t2 =>
    by_cases hs : s = '+' ∨ s = '-'
    · rw [show chompSign (s :: t2) = t2 by simp only [chompSign]; rw [if_pos hs]]
      refine ⟨[s], rfl, ?_⟩
      intro d hd; simp at hd; subst hd
      rcases hs with rfl | rfl <;> rfl
    · rw [show chompSign (s :: t2) = s :: t2 by simp only [chompSign]; rw [if_neg hs]]
      exact ⟨[], rfl, by simp⟩

theorem chompDigits_consumed : ∀ {cs r : List Char}, chompDigits cs = some r →
    ∃ t, cs = t ++ r ∧ ∀ c ∈ t, isNumChar c = true := by
  intro cs r h
  rw [chompDigits] at h
  by_cases hnil : cs.takeWhile isDigitCh = []
  · rw [if_pos hnil] at h; cases h
  · rw [if_neg hnil] at h
    cases h
    refine ⟨cs.takeWhile isDigitCh, ?_, ?_⟩
    · simp [List.takeWhile_append_dropWhile]
    · intro d hd
      exact isNumChar_of_digit (all_takeWhile cs d hd)

theorem chompExp_consumed : ∀ {cs r : List Char}, chompExp cs = some r →
    ∃ t, cs = t ++ r ∧ ∀ c ∈ t, isNumChar c = true := by
  intro cs r h
  cases cs with
  | nil =>
    simp [chompExp] at h
    subst h
    exact ⟨[], rfl, by simp⟩
  | cons c t =>
    simp only [chompExp] at h
    by_cases he : c = 'e' ∨ c = 'E'
    · rw [if_pos he] at h
      obtain ⟨s1, hs1, hall1⟩ := chompSign_consumed t
      obtain ⟨s2, hs2, hall2⟩ := chompDigits_consumed h
      refine ⟨c :: (s1 ++ s2), ?_, ?_⟩
      · simp only [List.cons_append, List.append_assoc]
        rw [← hs2, ← hs1]
      · intro d hd
        rcases List.mem_cons.mp hd with h2 | h2
        · subst h2
          rcases he with rfl | rfl <;> rfl
        · rcases List.mem_append.mp h2 with h2 | h2
          · exact hall1 d h2
          · exact hall2 d h2
    · rw [if_neg he] at h
      cases h
      exact ⟨[], rfl, by simp⟩

theorem chompMinus_consumed : ∀ (t : List Char),
    ∃ s, t = s ++ chompMinus t ∧ ∀ c ∈ s, isNumChar c = true := by
  intro t
  cases t with
  | nil => exact ⟨[], rfl, by simp⟩
  | cons c t2 =>
    by_cases hc : c = '-'
    · rw [show chompMinus (c :: t2) = t2 by simp only [chompMinus]; rw [if_pos hc]]
      refine ⟨[c], rfl, ?_⟩
      intro d hd; simp at hd; subst hd; subst hc; rfl
    · rw [show chompMinus (c :: t2) = c :: t2 by simp only [chompMinus]; rw [if_neg hc]]
      exact ⟨[], rfl, by simp⟩

theorem validNum_chain {cs : List Char} (h : validNum cs = true) :
    ∃ r1 r2, chompInt (chompMinus cs) = some r1 ∧ chompFrac r1 = some r2 ∧
      chompExp r2 = some [] := by
  rw [validNum] at h
  cases h1 : chompInt (chompMinus cs) <;> rw [h1] at h
  · cases h
  next r1 =>
    rw [Option.some_bind] at h
    cases h2 : chompFrac r1 <;> rw [h2] at h
    · cases h
    next r2 =>
      rw [Option.some_bind] at h
      cases h3 : chompExp r2 <;> rw [h3] at h
      · cases h
      next r3 =>
        simp only [decide_eq_true_eq] at h
        subst h
        exact ⟨r1, r2, rfl, h2, h3⟩

theorem validNum_all {cs : List Char} (h : validNum cs = true) :
    ∀ c ∈ cs, isNumChar c = true := by
  obtain ⟨r1, r2, h1, h2, h3⟩ := validNum_chain h
  obtain ⟨s0, hs0, hall0⟩ := chompMinus_consumed cs
  obtain ⟨t1, ht1, hall1⟩ := chompInt_consumed h1
  obtain ⟨t2, ht2, hall2⟩ := chompFrac_consumed h2
  obtain ⟨t3, ht3, hall3⟩ := chompExp_consumed h3
  intro d hd
  rw [hs0, ht1, ht2, ht3] at hd
  simp only [List.append_nil, List.mem_append] at hd
  rcases hd with hh | hh | hh | hh
  · exact hall0 d hh
  · exact hall1 d hh
  · exact hall2 d hh
  · exact hall3 d hh

theorem validNum_head {cs : List Char} (h : validNum cs = true) :
    ∃ c t, cs = c :: t ∧ (c = '-' ∨ isDigitCh c = true) := by
  obtain ⟨r1, r2, h1, h2, h3⟩ := validNum_chain h
  cases cs with
  | nil =>
    rw [show chompMinus [] = [] from rfl] at h1
    cases h1
  | cons c t =>
    by_cases hminus : c = '-'
    · exact ⟨c, t, rfl, Or.inl hminus⟩
    · refine ⟨c, t, rfl, Or.inr ?_⟩
      rw [show chompMinus (c :: t) = c :: t by simp only [chompMinus]; rw [if_neg hminus]] at h1
      rw [chompInt.eq_def] at h1
      by_cases h0 : c = '0'
      · subst h0; rfl
      · simp only [if_neg h0] at h1
        by_cases hdig : isDigitCh c = true
        · exact hdig
        · rw [if_neg hdig] at h1; cases h1

theorem validNum_ne_nil {cs : List Char} (h : validNum cs = true) : cs ≠ [] := by
  obtain ⟨c, t, hct, _⟩ := validNum_head h
  subst hct
  simp

/-! ## Round-trip prerequisites -/

/-- The continuations a serialized value is followed by inside
`Json.stringify` output: end of input, a comma, or a closing bracket. -/
def restOk (rest : List Char) : Prop :=
  match rest with
  | [] => True
  | c :: _ => c = ',' ∨ c = ']' ∨ c = '\x7d'

theorem stringify_head : ∀ {j : Json}, j.wf = true →
    ∃ c t, j.stringify = c :: t ∧ isJsonWs c = false ∧ c ≠ ']' ∧ c ≠ '\x7d' ∧ c ≠ ',' := by
  intro j hwf
  cases j with
  | null => exact ⟨'n', ['u', 'l', 'l'], rfl, by decide, by decide, by decide, by decide⟩
  | bool b =>
    cases b with
    | true => exact ⟨'t', ['r', 'u', 'e'], rfl, by decide, by decide, by decide, by decide⟩
    | false => exact ⟨'f', ['a', 'l', 's', 'e'], rfl, by decide, by decide, by decide, by decide⟩
  | num t =>
    have hv : validNum t = true := by
      have : (validNum t && t.all isNumChar) = true := hwf
      exact (Bool.and_eq_true _ _).mp this |>.1
    obtain ⟨c, t', hct, hc⟩ := validNum_head hv
    refine ⟨c, t', by rw [show (Json.num t).stringify = t from rfl, hct], ?_, ?_, ?_, ?_⟩ <;>
      rcases hc with rfl | hdig
    · decide
    · exact isJsonWs_false_of_digit hdig
    · decide
    · rcases isDigitCh_vals hdig with rfl|rfl|rfl|rfl|rfl|rfl|rfl|rfl|rfl|rfl <;> decide
    · decide
    · rcases isDigitCh_vals hdig with rfl|rfl|rfl|rfl|rfl|rfl|rfl|rfl|rfl|rfl <;> decide
    · decide
    · rcases isDigitCh_vals hdig with rfl|rfl|rfl|rfl|rfl|rfl|rfl|rfl|rfl|rfl <;> decide
  | str s =>
    exact ⟨'"', s.flatMap escChar ++ ['"'], rfl, by decide, by decide, by decide, by decide⟩
  | arr es =>
    exact ⟨'[', es.stringifyItems ++ [']'], rfl, by decide, by decide, by decide, by decide⟩
  | obj fs =>
    exact ⟨'\x7b', fs.stringifyMembers ++ ['\x7d'], rfl, by decide, by decide, by decide, by decide⟩

theorem wfItems_mem : ∀ {es : JsonItems}, es.wfItems = true → ∀ e ∈ es.toList, e.wf = true
  | .nil, _, e, he => by simp [JsonItems.toList] at he
  | .cons hd tl, h, e, he => by
    have h2 : (hd.wf && tl.wfItems) = true := h
    rw [Bool.and_eq_true] at h2
    rcases List.mem_cons.mp he with hh | hh
    · subst hh; exact h2.1
    · exact wfItems_mem h2.2 e hh

theorem wfMembers_mem : ∀ {fs : JsonMembers}, fs.wfMembers = true →
    ∀ kv ∈ fs.toList, (kv : List Char × Json).2.wf = true
  | .nil, _, kv, hkv => by simp [JsonMembers.toList] at hkv
  | .cons k v tl, h, kv, hkv => by
    have h2 : (v.wf && tl.wfMembers) = true := h
    rw [Bool.and_eq_true] at h2
    rcases List.mem_cons.mp hkv with hh | hh
    · subst hh; exact h2.1
    · exact wfMembers_mem h2.2 kv hh

theorem stringifyItems_mem_len : ∀ {es : JsonItems} {e : Json}, e ∈ es.toList →
    (e.stringify).length ≤ (es.stringifyItems).length
  | .nil, e, he => by simp [JsonItems.toList] at he
  | .cons hd tl, e, he => by
    rcases List.mem_cons.mp he with hh | hh
    · subst hh
      cases tl with
      | nil => simp [JsonItems.stringifyItems]
      | cons e2 tl2 =>
        rw [show (JsonItems.cons e (.cons e2 tl2)).stringifyItems
          = e.stringify ++ ',' :: (JsonItems.cons e2 tl2).stringifyItems from rfl]
        simp
    · have := @stringifyItems_mem_len tl e hh
      cases tl with
      | nil => simp [JsonItems.toList] at hh
      | cons e2 tl2 =>
        rw [show (JsonItems.cons hd (.cons e2 tl2)).stringifyItems
          = hd.stringify ++ ',' :: (JsonItems.cons e2 tl2).stringifyItems from rfl]
        simp only [List.length_append, List.length_cons]
        omega

theorem count_le_itemsLen : ∀ (es : JsonItems), es.count ≤ (es.stringifyItems).length + 1
  | .nil => by simp [JsonItems.count]
  | .cons e .nil => by simp [JsonItems.count, JsonItems.stringifyItems]
  | .cons e (.cons e2 tl) => by
    have ih := count_le_itemsLen (JsonItems.cons e2 tl)
    rw [show (JsonItems.cons e (.cons e2 tl)).stringifyItems
      = e.stringify ++ ',' :: (JsonItems.cons e2 tl).stringifyItems from rfl]
    rw [show (JsonItems.cons e (.cons e2 tl)).count = (JsonItems.cons e2 tl).count + 1 from rfl]
    simp only [List.length_append, List.length_cons]
    omega

theorem stringifyMembers_mem_len : ∀ {fs : JsonMembers} {kv : List Char × Json},
    kv ∈ fs.toList → (kv.2.stringify).length ≤ (fs.stringifyMembers).length
  | .nil, kv, hkv => by simp [JsonMembers.toList] at hkv
  | .cons k v tl, kv, hkv => by
    rcases List.mem_cons.mp hkv with hh | hh
    · subst hh
      cases tl with
      | nil =>
        rw [show (JsonMembers.cons k v .nil).stringifyMembers
          = stringifyStr k ++ ':' :: v.stringify from rfl]
        simp only [List.length_append, List.length_cons]
        omega
      | cons k2 v2 tl2 =>
        rw [show (JsonMembers.cons k v (.cons k2 v2 tl2)).stringifyMembers
          = (stringifyStr k ++ ':' :: v.stringify) ++ ',' ::
            (JsonMembers.cons k2 v2 tl2).stringifyMembers from rfl]
        simp only [List.length_append, List.length_cons]
        omega
    · have := @stringifyMembers_mem_len tl kv hh
      cases tl with
      | nil => simp [JsonMembers.toList] at hh
      | cons k2 v2 tl2 =>
        rw [show (JsonMembers.cons k v (.cons k2 v2 tl2)).stringifyMembers
          = (stringifyStr k ++ ':' :: v.stringify) ++ ',' ::
            (JsonMembers.cons k2 v2 tl2).stringifyMembers from rfl]
        simp only [List.length_append, List.length_cons]
        omega

theorem count_le_membersLen : ∀ (fs : JsonMembers), fs.count ≤ (fs.stringifyMembers).length + 1
  | .nil => by simp [JsonMembers.count]
  | .cons k v .nil => by simp [JsonMembers.count, JsonMembers.stringifyMembers]
  | .cons k v (.cons k2 v2 tl) => by
    have ih := count_le_membersLen (JsonMembers.cons k2 v2 tl)
    rw [show (JsonMembers.cons k v (.cons k2 v2 tl)).stringifyMembers
      = (stringifyStr k ++ ':' :: v.stringify) ++ ',' ::
        (JsonMembers.cons k2 v2 tl).stringifyMembers from rfl]
    rw [show (JsonMembers.cons k v (.cons k2 v2 tl)).count
      = (JsonMembers.cons k2 v2 tl).count + 1 from rfl]
    simp only [List.length_append, List.length_cons]
    omega

/-! ## Round trip: arrays -/

theorem restOk_comma (z : List Char) : restOk (',' :: z) := Or.inl rfl

theorem restOk_rbracket (z : List Char) : restOk (']' :: z) := Or.inr (Or.inl rfl)

theorem restOk_rbrace (z : List Char) : restOk ('\x7d' :: z) := Or.inr (Or.inr rfl)

theorem parseItemsRest_rt (pv : List Char → Option (Json × List Char)) :
    ∀ (es : JsonItems) (f : Nat) (rest : List Char),
      es ≠ .nil →
      (∀ e ∈ es.toList, ∀ r, restOk r → pv (e.stringify ++ r) = some (e, r)) →
      es.count ≤ f → restOk rest →
      parseItemsRest pv f (es.stringifyItems ++ ']' :: rest) = some (es, rest)
  | .nil, f, rest, hne, _, _, _ => absurd rfl hne
  | .cons e tl, f, rest, _, helem, hcount, hrest => by
    have hf1 : 1 ≤ f := by
      have : (JsonItems.cons e tl).count = tl.count + 1 := rfl
      omega
    obtain ⟨f, rfl⟩ : ∃ g, f = g + 1 := ⟨f - 1, by omega⟩
    have hmem : e ∈ (JsonItems.cons e tl).toList := by
      simp [JsonItems.toList]
    cases tl with
    | nil =>
      rw [show (JsonItems.cons e .nil).stringifyItems = e.stringify from rfl]
      simp only [parseItemsRest]
      rw [helem e hmem (']' :: rest) (restOk_rbracket rest), Option.some_bind]
      rw [skipWs_cons_of_not_ws (by decide)]
      simp
    | cons e2 tl2 =>
      rw [show (JsonItems.cons e (.cons e2 tl2)).stringifyItems
        = e.stringify ++ ',' :: (JsonItems.cons e2 tl2).stringifyItems from rfl]
      rw [List.append_assoc, List.cons_append]
      simp only [parseItemsRest]
      rw [helem e hmem (',' :: ((JsonItems.cons e2 tl2).stringifyItems ++ ']' :: rest))
        (restOk_comma _), Option.some_bind]
      rw [skipWs_cons_of_not_ws (by decide)]
      have hrec := parseItemsRest_rt pv (JsonItems.cons e2 tl2) f rest (by simp)
        (fun d hd r hr => helem d (by simp [JsonItems.toList] at hd ⊢; tauto) r hr)
        (by have : (JsonItems.cons e (.cons e2 tl2)).count
              = (JsonItems.cons e2 tl2).count + 1 := rfl
            omega)
        hrest
      simp [hrec]

theorem parseItems_rt (pv : List Char → Option (Json × List Char))
    (es : JsonItems) (f : Nat) (rest : List Char)
    (hwf : es.wfItems = true)
    (helem : ∀ e ∈ es.toList, ∀ r, restOk r → pv (e.stringify ++ r) = some (e, r))
    (hcount : es.count ≤ f) (hrest : restOk rest) :
    parseItems pv f (es.stringifyItems ++ ']' :: rest) = some (es, rest) := by
  cases es with
  | nil =>
    rw [show JsonItems.nil.stringifyItems = ([] : List Char) from rfl]
    rw [show ([] : List Char) ++ ']' :: rest = ']' :: rest from rfl]
    rw [parseItems, skipWs_cons_of_not_ws (by decide)]
    simp
  | cons e tl =>
    have hewf : e.wf = true := by
      have h2 : (e.wf && tl.wfItems) = true := hwf
      exact ((Bool.and_eq_true _ _).mp h2).1
    obtain ⟨c, t, hct, hws, hrb, _, _⟩ := stringify_head hewf
    have hsplit : ∃ X, (JsonItems.cons e tl).stringifyItems ++ ']' :: rest = c :: X := by
      cases tl with
      | nil =>
        exact ⟨t ++ ']' :: rest, by
          rw [show (JsonItems.cons e .nil).stringifyItems = e.stringify from rfl, hct]; simp⟩
      | cons e2 tl2 =>
        refine ⟨t ++ ',' :: ((JsonItems.cons e2 tl2).stringifyItems ++ ']' :: rest), ?_⟩
        rw [show (JsonItems.cons e (.cons e2 tl2)).stringifyItems
          = e.stringify ++ ',' :: (JsonItems.cons e2 tl2).stringifyItems from rfl, hct]
        simp
    obtain ⟨X, hX⟩ := hsplit
    rw [parseItems, hX, skipWs_cons_of_not_ws hws]
    show (if c = ']' then some (JsonItems.nil, X) else parseItemsRest pv f (c :: X)) = _
    rw [if_neg hrb, ← hX]
    exact parseItemsRest_rt pv (JsonItems.cons e tl) f rest (by simp) helem hcount hrest

/-! ## Round trip: objects -/

theorem stringifyStr_cons (k : List Char) :
    stringifyStr k = '"' :: (k.flatMap escChar ++ ['"']) := rfl

theorem parseMembersRest_rt (pv : List Char → Option (Json × List Char)) :
    ∀ (fs : JsonMembers) (f : Nat) (rest : List Char),
      fs ≠ .nil →
      (∀ kv ∈ fs.toList, ∀ r, restOk r →
        pv ((kv : List Char × Json).2.stringify ++ r) = some (kv.2, r)) →
      fs.count ≤ f → restOk rest →
      parseMembersRest pv f (fs.stringifyMembers ++ '\x7d' :: rest) = some (fs, rest)
  | .nil, f, rest, hne, _, _, _ => absurd rfl hne
  | .cons k v tl, f, rest, _, helem, hcount, hrest => by
    have hf1 : 1 ≤ f := by
      have : (JsonMembers.cons k v tl).count = tl.count + 1 := rfl
      omega
    obtain ⟨f, rfl⟩ : ∃ g, f = g + 1 := ⟨f - 1, by omega⟩
    have hmem : (k, v) ∈ (JsonMembers.cons k v tl).toList := by
      simp [JsonMembers.toList]
    cases tl with
    | nil =>
      have hinput : (JsonMembers.cons k v .nil).stringifyMembers ++ '\x7d' :: rest
          = '"' :: (k.flatMap escChar ++ '"' :: (':' :: (v.stringify ++ '\x7d' :: rest))) := by
        rw [show (JsonMembers.cons k v .nil).stringifyMembers
          = stringifyStr k ++ ':' :: v.stringify from rfl, stringifyStr_cons]
        simp
      rw [hinput]
      simp only [parseMembersRest]
      rw [skipWs_cons_of_not_ws (by decide)]
      show ((parseStrBody [] (k.flatMap escChar ++ '"' ::
        (':' :: (v.stringify ++ '\x7d' :: rest)))).bind _) = _
      rw [parseStrBody_rt k [] _, Option.some_bind]
      simp only [List.reverse_nil, List.nil_append]
      rw [skipWs_cons_of_not_ws (by decide)]
      show ((pv (v.stringify ++ '\x7d' :: rest)).bind _) = _
      rw [helem (k, v) hmem ('\x7d' :: rest) (restOk_rbrace rest), Option.some_bind]
      rw [skipWs_cons_of_not_ws (by decide)]
      simp
    | cons k2 v2 tl2 =>
      have hinput : (JsonMembers.cons k v (.cons k2 v2 tl2)).stringifyMembers ++ '\x7d' :: rest
          = '"' :: (k.flatMap escChar ++ '"' :: (':' :: (v.stringify ++ ',' ::
            ((JsonMembers.cons k2 v2 tl2).stringifyMembers ++ '\x7d' :: rest)))) := by
        rw [show (JsonMembers.cons k v (.cons k2 v2 tl2)).stringifyMembers
          = (stringifyStr k ++ ':' :: v.stringify) ++ ',' ::
            (JsonMembers.cons k2 v2 tl2).stringifyMembers from rfl, stringifyStr_cons]
        simp
      rw [hinput]
      simp only [parseMembersRest]
      rw [skipWs_cons_of_not_ws (by decide)]
      show ((parseStrBody [] (k.flatMap escChar ++ '"' :: (':' :: (v.stringify ++ ',' ::
        ((JsonMembers.cons k2 v2 tl2).stringifyMembers ++ '\x7d' :: rest))))).bind _) = _
      rw [parseStrBody_rt k [] _, Option.some_bind]
      simp only [List.reverse_nil, List.nil_append]
      rw [skipWs_cons_of_not_ws (by decide)]
      show ((pv (v.stringify ++ ',' :: ((JsonMembers.cons k2 v2 tl2).stringifyMembers ++
        '\x7d' :: rest))).bind _) = _
      rw [helem (k, v) hmem _ (restOk_comma _), Option.some_bind]
      rw [skipWs_cons_of_not_ws (by decide)]
      have hrec := parseMembersRest_rt pv (JsonMembers.cons k2 v2 tl2) f rest (by simp)
        (fun kv hkv r hr => helem kv (by simp [JsonMembers.toList] at hkv ⊢; tauto) r hr)
        (by have : (JsonMembers.cons k v (.cons k2 v2 tl2)).count
              = (JsonMembers.cons k2 v2 tl2).count + 1 := rfl
            omega)
        hrest
      simp [hrec]

theorem parseMembers_rt (pv : List Char → Option (Json × List Char))
    (fs : JsonMembers) (f : Nat) (rest : List Char)
    (helem : ∀ kv ∈ fs.toList, ∀ r, restOk r →
      pv ((kv : List Char × Json).2.stringify ++ r) = some (kv.2, r))
    (hcount : fs.count ≤ f) (hrest : restOk rest) :
    parseMembers pv f (fs.stringifyMembers ++ '\x7d' :: rest) = some (fs, rest) := by
  cases fs with
  | nil =>
    rw [show JsonMembers.nil.stringifyMembers ++ '\x7d' :: rest = '\x7d' :: rest from rfl]
    rw [parseMembers, skipWs_cons_of_not_ws (by decide)]
    simp
  | cons k v tl =>
    have hhead : ∃ X, (JsonMembers.cons k v tl).stringifyMembers ++ '\x7d' :: rest
        = '"' :: X := by
      cases tl with
      | nil =>
        refine ⟨k.flatMap escChar ++ '"' :: (':' :: (v.stringify ++ '\x7d' :: rest)), ?_⟩
        rw [show (JsonMembers.cons k v .nil).stringifyMembers
          = stringifyStr k ++ ':' :: v.stringify from rfl, stringifyStr_cons]
        simp
      | cons k2 v2 tl2 =>
        refine ⟨k.flatMap escChar ++ '"' :: (':' :: (v.stringify ++ ',' ::
          ((JsonMembers.cons k2 v2 tl2).stringifyMembers ++ '\x7d' :: rest))), ?_⟩
        rw [show (JsonMembers.cons k v (.cons k2 v2 tl2)).stringifyMembers
          = (stringifyStr k ++ ':' :: v.stringify) ++ ',' ::
            (JsonMembers.cons k2 v2 tl2).stringifyMembers from rfl, stringifyStr_cons]
        simp
    obtain ⟨X, hX⟩ := hhead
    rw [parseMembers, hX, skipWs_cons_of_not_ws (by decide)]
    show (if ('"' : Char) = '\x7d' then some (JsonMembers.nil, X)
      else parseMembersRest pv f ('"' :: X)) = _
    rw [if_neg (by decide), ← hX]
    exact parseMembersRest_rt pv (JsonMembers.cons k v tl) f rest (by simp) helem hcount hrest

/-! ## `canon` on unique keys -/

def JsonMembers.appendM : JsonMembers → JsonMembers → JsonMembers
  | .nil, ms => ms
  | .cons k v tl, ms => .cons k v (tl.appendM ms)

theorem appendM_nil : ∀ (fs : JsonMembers), fs.appendM .nil = fs
  | .nil => rfl
  | .cons k v tl => by
    rw [show (JsonMembers.cons k v tl).appendM .nil = .cons k v (tl.appendM .nil) from rfl,
      appendM_nil tl]

theorem keys_appendM : ∀ (a b : JsonMembers), (a.appendM b).keys = a.keys ++ b.keys
  | .nil, b => rfl
  | .cons k v tl, b => by
    rw [show (JsonMembers.cons k v tl).appendM b = .cons k v (tl.appendM b) from rfl]
    rw [show (JsonMembers.cons k v (tl.appendM b)).keys = k :: (tl.appendM b).keys from rfl]
    rw [keys_appendM tl b]
    rfl

theorem appendM_assoc : ∀ (a b c : JsonMembers), (a.appendM b).appendM c = a.appendM (b.appendM c)
  | .nil, b, c => rfl
  | .cons k v tl, b, c => by
    rw [show (JsonMembers.cons k v tl).appendM b = .cons k v (tl.appendM b) from rfl]
    rw [show (JsonMembers.cons k v (tl.appendM b)).appendM c
      = .cons k v ((tl.appendM b).appendM c) from rfl]
    rw [appendM_assoc tl b c]
    rfl

theorem setKey_not_mem : ∀ (fs : JsonMembers) (k : List Char) (v : Json), k ∉ fs.keys →
    fs.setKey k v = fs.appendM (.cons k v .nil)
  | .nil, k, v, _ => rfl
  | .cons k' v' tl, k, v, h => by
    have hne : k' ≠ k := by
      intro hh
      exact h (by rw [show (JsonMembers.cons k' v' tl).keys = k' :: tl.keys from rfl, hh]; simp)
    rw [show (JsonMembers.cons k' v' tl).setKey k v
      = if k' = k then .cons k' v tl else .cons k' v' (tl.setKey k v) from rfl]
    rw [if_neg hne]
    rw [setKey_not_mem tl k v (by
      intro hh
      exact h (by rw [show (JsonMembers.cons k' v' tl).keys = k' :: tl.keys from rfl]; simp [hh]))]
    rfl

theorem canonAux_disjoint : ∀ (ms acc : JsonMembers),
    (∀ k' ∈ ms.keys, k' ∉ acc.keys) → ms.keys.Nodup →
    JsonMembers.canonAux acc ms = acc.appendM ms
  | .nil, acc, _, _ => by
    rw [show JsonMembers.canonAux acc .nil = acc from rfl, appendM_nil]
  | .cons k v tl, acc, hdisj, hnodup => by
    rw [show JsonMembers.canonAux acc (.cons k v tl)
      = JsonMembers.canonAux (acc.setKey k v) tl from rfl]
    have hkeys : (JsonMembers.cons k v tl).keys = k :: tl.keys := rfl
    rw [hkeys] at hdisj hnodup
    have hk : k ∉ acc.keys := hdisj k (by simp)
    rw [setKey_not_mem acc k v hk]
    rw [canonAux_disjoint tl (acc.appendM (.cons k v .nil)) ?hdisj ?hnd]
    case hdisj =>
      intro k' hk'
      rw [keys_appendM]
      simp only [List.mem_append]
      rintro (hh | hh)
      · exact hdisj k' (by simp [hk']) hh
      · have : k' = k := by
          rw [show (JsonMembers.cons k v .nil).keys = [k] from rfl] at hh
          simpa using hh
        subst this
        exact (List.nodup_cons.mp hnodup).1 hk'
    case hnd => exact (List.nodup_cons.mp hnodup).2
    rw [appendM_assoc]
    rfl

theorem canon_self {fs : JsonMembers} (h : fs.keys.Nodup) : fs.canon = fs := by
  rw [JsonMembers.canon, canonAux_disjoint fs .nil (by simp [JsonMembers.keys]) h]
  rfl

/-! ## The stringify/parse round trip -/

theorem restOk_not_numChar {rest : List Char} (h : restOk rest) :
    ∀ c, rest.head? = some c → isNumChar c = false := by
  intro c hc
  cases rest with
  | nil => cases hc
  | cons d t =>
    cases hc
    rcases h with rfl | rfl | rfl <;> rfl

theorem num_head_ne {c d : Char} (hc : c = '-' ∨ isDigitCh c = true)
    (hd : d = 'n' ∨ d = 't' ∨ d = 'f' ∨ d = '"' ∨ d = '[' ∨ d = '\x7b') : d ≠ c := by
  rcases hc with rfl | hdig
  · rcases hd with rfl | rfl | rfl | rfl | rfl | rfl <;> decide
  · rcases isDigitCh_vals hdig with rfl|rfl|rfl|rfl|rfl|rfl|rfl|rfl|rfl|rfl <;>
      rcases hd with rfl | rfl | rfl | rfl | rfl | rfl <;> decide

theorem parseValue_rt : ∀ (n : Nat) (j : Json), sizeOf j ≤ n → j.wf = true →
    ∀ (f : Nat) (rest : List Char), (j.stringify).length + 1 ≤ f → restOk rest →
    parseValue f (j.stringify ++ rest) = some (j, rest) := by
  intro n
  induction n with
  | zero =>
    intro j hsize
    exfalso
    cases j <;> simp at hsize
  | succ n ih =>
    intro j hsize hwf f rest hf hrest
    obtain ⟨f, rfl⟩ : ∃ g, f = g + 1 := ⟨f - 1, by omega⟩
    cases j with
    | null =>
      simp only [parseValue]
      rw [show Json.null.stringify ++ rest = 'n' :: 'u' :: 'l' :: 'l' :: rest from rfl]
      rw [skipWs_cons_of_not_ws (by decide)]
      rw [if_pos (show hasPrefixChars ['n', 'u', 'l', 'l'] ('n' :: 'u' :: 'l' :: 'l' :: rest)
        = true from hasPrefixChars_append ['n', 'u', 'l', 'l'] rest)]
      rfl
    | bool b =>
      cases b with
      | true =>
        simp only [parseValue]
        rw [show (Json.bool true).stringify ++ rest = 't' :: 'r' :: 'u' :: 'e' :: rest from rfl]
        rw [skipWs_cons_of_not_ws (by decide)]
        rw [if_neg (by simp [hasPrefixChars_false_of_ne (show 'n' ≠ 't' by decide)])]
        rw [if_pos (show hasPrefixChars ['t', 'r', 'u', 'e'] ('t' :: 'r' :: 'u' :: 'e' :: rest)
          = true from hasPrefixChars_append ['t', 'r', 'u', 'e'] rest)]
        rfl
      | false =>
        simp only [parseValue]
        rw [show (Json.bool false).stringify ++ rest
          = 'f' :: 'a' :: 'l' :: 's' :: 'e' :: rest from rfl]
        rw [skipWs_cons_of_not_ws (by decide)]
        rw [if_neg (by simp [hasPrefixChars_false_of_ne (show 'n' ≠ 'f' by decide)])]
        rw [if_neg (by simp [hasPrefixChars_false_of_ne (show 't' ≠ 'f' by decide)])]
        rw [if_pos (show hasPrefixChars ['f', 'a', 'l', 's', 'e']
          ('f' :: 'a' :: 'l' :: 's' :: 'e' :: rest)
          = true from hasPrefixChars_append ['f', 'a', 'l', 's', 'e'] rest)]
        rfl
    | str s =>
      have hinput : (Json.str s).stringify ++ rest
          = '"' :: (s.flatMap escChar ++ '"' :: rest) := by
        rw [show (Json.str s).stringify = stringifyStr s from rfl, stringifyStr_cons]
        simp
      simp only [parseValue]
      rw [hinput, skipWs_cons_of_not_ws (by decide)]
      rw [if_neg (by simp [hasPrefixChars_false_of_ne (show 'n' ≠ '"' by decide)])]
      rw [if_neg (by simp [hasPrefixChars_false_of_ne (show 't' ≠ '"' by decide)])]
      rw [if_neg (by simp [hasPrefixChars_false_of_ne (show 'f' ≠ '"' by decide)])]
      show ((parseStrBody [] (s.flatMap escChar ++ '"' :: rest)).bind _) = _
      rw [parseStrBody_rt s [] rest]
      simp
    | num t =>
      have hwf2 : (validNum t && t.all isNumChar) = true := hwf
      rw [Bool.and_eq_true] at hwf2
      obtain ⟨hvalid, hall⟩ := hwf2
      obtain ⟨c, t', hct, hc⟩ := validNum_head hvalid
      have hws : isJsonWs c = false := by
        rcases hc with rfl | hdig
        · decide
        · exact isJsonWs_false_of_digit hdig
      simp only [parseValue]
      rw [show (Json.num t).stringify = t from rfl, hct, List.cons_append,
        skipWs_cons_of_not_ws hws]
      rw [if_neg (by simp [hasPrefixChars_false_of_ne (num_head_ne hc (Or.inl rfl))])]
      rw [if_neg (by simp [hasPrefixChars_false_of_ne (num_head_ne hc (Or.inr (Or.inl rfl)))])]
      rw [if_neg (by
        simp [hasPrefixChars_false_of_ne (num_head_ne hc (Or.inr (Or.inr (Or.inl rfl))))])]
      have hne1 : c ≠ '"' :=
        Ne.symm (num_head_ne hc (Or.inr (Or.inr (Or.inr (Or.inl rfl)))))
      have hne2 : c ≠ '[' :=
        Ne.symm (num_head_ne hc (Or.inr (Or.inr (Or.inr (Or.inr (Or.inl rfl))))))
      have hne3 : c ≠ '\x7b' :=
        Ne.symm (num_head_ne hc (Or.inr (Or.inr (Or.inr (Or.inr (Or.inr rfl))))))
      show (if c = '"' then _ else if c = '[' then _ else if c = '\x7b' then _
        else if validNum ((c :: (t' ++ rest)).takeWhile isNumChar) then
          some (Json.num ((c :: (t' ++ rest)).takeWhile isNumChar),
            (c :: (t' ++ rest)).dropWhile isNumChar)
        else none) = _
      rw [if_neg hne1, if_neg hne2, if_neg hne3]
      rw [show c :: (t' ++ rest) = t ++ rest by rw [hct, List.cons_append]]
      have htk := takeWhile_append_of_all t rest
        (fun d hd => by
          have := List.all_eq_true.mp hall d hd
          simpa using this)
        (restOk_not_numChar hrest)
      rw [htk.1, htk.2, if_pos hvalid, hct]
    | arr es =>
      have hwfI : es.wfItems = true := hwf
      have hflen : (Json.arr es).stringify.length = es.stringifyItems.length + 2 := by
        rw [show (Json.arr es).stringify = '[' :: es.stringifyItems ++ [']'] from rfl]
        simp
      have hinput : (Json.arr es).stringify ++ rest
          = '[' :: (es.stringifyItems ++ ']' :: rest) := by
        rw [show (Json.arr es).stringify = '[' :: es.stringifyItems ++ [']'] from rfl]
        simp
      simp only [parseValue]
      rw [hinput, skipWs_cons_of_not_ws (by decide)]
      rw [if_neg (by simp [hasPrefixChars_false_of_ne (show 'n' ≠ '[' by decide)])]
      rw [if_neg (by simp [hasPrefixChars_false_of_ne (show 't' ≠ '[' by decide)])]
      rw [if_neg (by simp [hasPrefixChars_false_of_ne (show 'f' ≠ '[' by decide)])]
      show ((parseItems (parseValue f) f (es.stringifyItems ++ ']' :: rest)).bind _) = _
      rw [parseItems_rt (parseValue f) es f rest hwfI ?helem ?hcount hrest]
      case helem =>
        intro e he r hr
        have h1 := sizeOf_mem_items he
        have h2 : sizeOf (Json.arr es) = 1 + sizeOf es := by simp
        have hlen := stringifyItems_mem_len he
        exact ih e (by omega) (wfItems_mem hwfI e he) f r (by omega) hr
      case hcount =>
        have := count_le_itemsLen es
        omega
      simp
    | obj fs =>
      have hwfO : (fs.wfMembers && decide fs.keys.Nodup) = true := hwf
      rw [Bool.and_eq_true, decide_eq_true_eq] at hwfO
      obtain ⟨hwfM, hnodup⟩ := hwfO
      have hflen : (Json.obj fs).stringify.length = fs.stringifyMembers.length + 2 := by
        rw [show (Json.obj fs).stringify
          = '\x7b' :: fs.stringifyMembers ++ ['\x7d'] from rfl]
        simp
      have hinput : (Json.obj fs).stringify ++ rest
          = '\x7b' :: (fs.stringifyMembers ++ '\x7d' :: rest) := by
        rw [show (Json.obj fs).stringify
          = '\x7b' :: fs.stringifyMembers ++ ['\x7d'] from rfl]
        simp
      simp only [parseValue]
      rw [hinput, skipWs_cons_of_not_ws (by decide)]
      rw [if_neg (by simp [hasPrefixChars_false_of_ne (show 'n' ≠ '\x7b' by decide)])]
      rw [if_neg (by simp [hasPrefixChars_false_of_ne (show 't' ≠ '\x7b' by decide)])]
      rw [if_neg (by simp [hasPrefixChars_false_of_ne (show 'f' ≠ '\x7b' by decide)])]
      show ((parseMembers (parseValue f) f (fs.stringifyMembers ++ '\x7d' :: rest)).bind _) = _
      rw [parseMembers_rt (parseValue f) fs f rest ?helem ?hcount hrest]
      case helem =>
        intro kv hkv r hr
        obtain ⟨k0, v0⟩ := kv
        have h1 := sizeOf_mem_members hkv
        have h2 : sizeOf (Json.obj fs) = 1 + sizeOf fs := by simp
        have hlen : v0.stringify.length ≤ fs.stringifyMembers.length :=
          stringifyMembers_mem_len hkv
        exact ih v0 (by omega) (wfMembers_mem hwfM (k0, v0) hkv) f r (by omega) hr
      case hcount =>
        have := count_le_membersLen fs
        omega
      simp [canon_self hnodup]

/-- The full `JSON.parse` round trip on well-formed values. -/
theorem jsonParse_stringify {j : Json} (hwf : j.wf = true) :
    jsonParse j.stringify = some j := by
  rw [jsonParse]
  have h := parseValue_rt (sizeOf j) j le_rfl hwf (j.stringify.length + 2)
    [] (by omega) trivial
  rw [List.append_nil] at h
  rw [h]
  rfl

/-! ## Every parsed value is well-formed -/

theorem keys_setKey : ∀ (fs : JsonMembers) (k : List Char) (v : Json),
    (fs.setKey k v).keys = if k ∈ fs.keys then fs.keys else fs.keys ++ [k]
  | .nil, k, v => by simp [JsonMembers.setKey, JsonMembers.keys]
  | .cons k' v' tl, k, v => by
    have ih := keys_setKey tl k v
    rw [show (JsonMembers.cons k' v' tl).setKey k v
      = if k' = k then .cons k' v tl else .cons k' v' (tl.setKey k v) from rfl]
    by_cases hk : k' = k
    · subst hk
      rw [if_pos rfl]
      rw [show (JsonMembers.cons k' v tl).keys = k' :: tl.keys from rfl]
      rw [show (JsonMembers.cons k' v' tl).keys = k' :: tl.keys from rfl]
      simp
    · rw [if_neg hk]
      rw [show (JsonMembers.cons k' v' (tl.setKey k v)).keys = k' :: (tl.setKey k v).keys from rfl]
      rw [show (JsonMembers.cons k' v' tl).keys = k' :: tl.keys from rfl]
      rw [ih]
      by_cases hmem : k ∈ tl.keys
      · rw [if_pos hmem, if_pos (by simp [hmem])]
      · rw [if_neg hmem, if_neg (by
          simp only [List.mem_cons]
          rintro (h | h)
          · exact hk h.symm
          · exact hmem h)]
        simp

theorem wfMembers_setKey : ∀ {fs : JsonMembers} {k : List Char} {v : Json},
    fs.wfMembers = true → v.wf = true → (fs.setKey k v).wfMembers = true
  | .nil, k, v, _, hv => by simpa [JsonMembers.setKey, JsonMembers.wfMembers] using hv
  | .cons k' v' tl, k, v, hfs, hv => by
    have ih := fun h => @wfMembers_setKey tl k v h hv
    have h2 : (v'.wf && tl.wfMembers) = true := hfs
    rw [Bool.and_eq_true] at h2
    rw [show (JsonMembers.cons k' v' tl).setKey k v
      = if k' = k then .cons k' v tl else .cons k' v' (tl.setKey k v) from rfl]
    by_cases hk : k' = k
    · rw [if_pos hk]
      show (v.wf && tl.wfMembers) = true
      rw [Bool.and_eq_true]
      exact ⟨hv, h2.2⟩
    · rw [if_neg hk]
      show (v'.wf && (tl.setKey k v).wfMembers) = true
      rw [Bool.and_eq_true]
      exact ⟨h2.1, ih h2.2⟩

theorem canonAux_nodup_wf : ∀ (ms acc : JsonMembers), acc.keys.Nodup → acc.wfMembers = true →
    ms.wfMembers = true →
    (JsonMembers.canonAux acc ms).keys.Nodup ∧ (JsonMembers.canonAux acc ms).wfMembers = true
  | .nil, acc, hnd, hwf, _ => ⟨hnd, hwf⟩
  | .cons k v tl, acc, hnd, hwf, hms => by
    have h2 : (v.wf && tl.wfMembers) = true := hms
    rw [Bool.and_eq_true] at h2
    rw [show JsonMembers.canonAux acc (.cons k v tl)
      = JsonMembers.canonAux (acc.setKey k v) tl from rfl]
    refine canonAux_nodup_wf tl (acc.setKey k v) ?_ (wfMembers_setKey hwf h2.1) h2.2
    rw [keys_setKey]
    by_cases hmem : k ∈ acc.keys
    · rw [if_pos hmem]; exact hnd
    · rw [if_neg hmem]
      simpa [List.nodup_append] using ⟨hnd, hmem⟩

theorem canon_nodup (ms : JsonMembers) (h : ms.wfMembers = true) :
    (ms.canon).keys.Nodup ∧ (ms.canon).wfMembers = true := by
  rw [JsonMembers.canon]
  exact canonAux_nodup_wf ms .nil (by simp [JsonMembers.keys]) rfl h

theorem parseItemsRest_wf (pv : List Char → Option (Json × List Char))
    (hpv : ∀ cs j rest, pv cs = some (j, rest) → j.wf = true) :
    ∀ (f : Nat) (cs : List Char) (es : JsonItems) (rest : List Char),
      parseItemsRest pv f cs = some (es, rest) → es.wfItems = true := by
  intro f
  induction f with
  | zero => intro cs es rest h; cases h
  | succ f ih =>
    intro cs es rest h
    simp only [parseItemsRest] at h
    rw [Option.bind_eq_some] at h
    obtain ⟨er, her, h⟩ := h
    split at h
    · cases h
    next d r2 hm =>
      split at h
      · rw [Option.bind_eq_some] at h
        obtain ⟨esr, hesr, h⟩ := h
        cases h
        show (er.1.wf && esr.1.wfItems) = true
        rw [Bool.and_eq_true]
        exact ⟨hpv cs er.1 er.2 (by rw [her]), ih r2 esr.1 esr.2 hesr⟩
      · split at h
        · cases h
          show (er.1.wf && JsonItems.nil.wfItems) = true
          rw [Bool.and_eq_true]
          exact ⟨hpv cs er.1 er.2 (by rw [her]), rfl⟩
        · cases h

theorem parseItems_wf (pv : List Char → Option (Json × List Char))
    (hpv : ∀ cs j rest, pv cs = some (j, rest) → j.wf = true)
    (f : Nat) (cs : List Char) (es : JsonItems) (rest : List Char)
    (h : parseItems pv f cs = some (es, rest)) : es.wfItems = true := by
  rw [parseItems] at h
  split at h
  · cases h
  next c rest2 hm =>
    split at h
    · cases h; rfl
    · exact parseItemsRest_wf pv hpv f (c :: rest2) es rest h

theorem parseMembersRest_wf (pv : List Char → Option (Json × List Char))
    (hpv : ∀ cs j rest, pv cs = some (j, rest) → j.wf = true) :
    ∀ (f : Nat) (cs : List Char) (ms : JsonMembers) (rest : List Char),
      parseMembersRest pv f cs = some (ms, rest) → ms.wfMembers = true := by
  intro f
  induction f with
  | zero => intro cs ms rest h; cases h
  | succ f ih =>
    intro cs ms rest h
    simp only [parseMembersRest] at h
    split at h
    · cases h
    next c rest2 hm =>
      split at h
      · rw [Option.bind_eq_some] at h
        obtain ⟨kr, hkr, h⟩ := h
        split at h
        · cases h
        next d r2 hm2 =>
          split at h
          · rw [Option.bind_eq_some] at h
            obtain ⟨vr, hvr, h⟩ := h
            split at h
            · cases h
            next d2 r4 hm3 =>
              split at h
              · rw [Option.bind_eq_some] at h
                obtain ⟨msr, hmsr, h⟩ := h
                cases h
                show (vr.1.wf && msr.1.wfMembers) = true
                rw [Bool.and_eq_true]
                exact ⟨hpv r2 vr.1 vr.2 (by rw [hvr]), ih r4 msr.1 msr.2 hmsr⟩
              · split at h
                · cases h
                  show (vr.1.wf && JsonMembers.nil.wfMembers) = true
                  rw [Bool.and_eq_true]
                  exact ⟨hpv r2 vr.1 vr.2 (by rw [hvr]), rfl⟩
                · cases h
          · cases h
      · cases h

theorem parseMembers_wf (pv : List Char → Option (Json × List Char))
    (hpv : ∀ cs j rest, pv cs = some (j, rest) → j.wf = true)
    (f : Nat) (cs : List Char) (ms : JsonMembers) (rest : List Char)
    (h : parseMembers pv f cs = some (ms, rest)) : ms.wfMembers = true := by
  rw [parseMembers] at h
  split at h
  · cases h
  next c rest2 hm =>
    split at h
    · cases h; rfl
    · exact parseMembersRest_wf pv hpv f (c :: rest2) ms rest h

theorem parseValue_wf : ∀ (f : Nat) (cs : List Char) (j : Json) (rest : List Char),
    parseValue f cs = some (j, rest) → j.wf = true := by
  intro f
  induction f with
  | zero => intro cs j rest h; cases h
  | succ f ih =>
    intro cs j rest h
    simp only [parseValue] at h
    split at h
    · cases h; rfl
    · split at h
      · cases h; rfl
      · split at h
        · cases h; rfl
        · split at h
          · cases h
          next c rest2 hm =>
            split at h
            · rw [Option.bind_eq_some] at h
              obtain ⟨p, hp, h⟩ := h
              cases h
              rfl
            · split at h
              · rw [Option.bind_eq_some] at h
                obtain ⟨p, hp, h⟩ := h
                cases h
                exact parseItems_wf (parseValue f) ih f rest2 p.1 p.2 hp
              · split at h
                · rw [Option.bind_eq_some] at h
                  obtain ⟨p, hp, h⟩ := h
                  cases h
                  have hm := parseMembers_wf (parseValue f) ih f rest2 p.1 p.2 hp
                  have hc := canon_nodup p.1 hm
                  show (p.1.canon.wfMembers && decide p.1.canon.keys.Nodup) = true
                  rw [Bool.and_eq_true, decide_eq_true_eq]
                  exact ⟨hc.2, hc.1⟩
                · split at h
                  · cases h
                    next hvalid =>
                      show (validNum _ && List.all _ isNumChar) = true
                      rw [Bool.and_eq_true]
                      refine ⟨hvalid, ?_⟩
                      rw [List.all_eq_true]
                      intro d hd
                      exact all_takeWhile (c :: rest2) d hd
                  · cases h

/-- Every value `jsonParse` returns is well-formed. -/
theorem jsonParse_wf {cs : List Char} {j : Json} (h : jsonParse cs = some j) : j.wf = true := by
  rw [jsonParse] at h
  cases hp : parseValue (cs.length + 2) cs with
  | none => rw [hp] at h; cases h
  | some p =>
    obtain ⟨j1, r1⟩ := p
    rw [hp] at h
    have h2 : (if skipWs r1 = [] then some j1 else none) = some j := h
    by_cases hw : skipWs r1 = []
    · rw [if_pos hw] at h2
      cases h2
      exact parseValue_wf _ cs j r1 hp
    · rw [if_neg hw] at h2
      cases h2

/-! ## Source embedding: the Event-Block Codec (`parseSseDataPayload`) -/

/-- `line.replace(/^\s/, "")`: drop the first character when it is in the
JavaScript `\s` class. -/
def stripLeadingJsSpace (l : List Char) : List Char :=
  match l with
  | [] => []
  | c :: t => if isJsSpace c then t else c :: t

/-- The data-field texts of a block:
`block.split("\n").filter(l => l.startsWith("data:")).map(l => l.slice(5).replace(/^\s/, ""))`. -/
def sseDataLineTexts (block : List Char) : List (List Char) :=
  ((splitOnChar '\n' block).filter (fun l => hasPrefixChars "data:".data l)).map
    (fun l => stripLeadingJsSpace (l.drop 5))

/-- `parseSseDataPayload` of the source: select the data lines, strip the
prefix and at most one following `\s` character, join, trim, `JSON.parse`;
unwrap a nested object-typed `payload` field; fail soft to `none`. -/
def parseSseDataPayload (block : List Char) : Option Json :=
  if block = [] then none
  else if sseDataLineTexts block = [] then none
  else if jsTrim (joinNl (sseDataLineTexts block)) = [] then none
  else
    match jsonParse (jsTrim (joinNl (sseDataLineTexts block))) with
    | none => none
    | some parsed =>
      if parsed.isObjLike then
        match parsed.getProp "payload".data with
        | some np => if np.isObjLike then some np else some parsed
        | none => some parsed
      else none

/-- The claim's description of the decoder, word for word: identical to
`parseSseDataPayload` except that it strips "at most one following space"
after the `data:` prefix — the literal space character, not the whole
JavaScript whitespace class. -/
def stripLeadingSpaceChar (l : List Char) : List Char :=
  match l with
  | [] => []
  | c :: t => if c = ' ' then t else c :: t

def specDataLineTexts (block : List Char) : List (List Char) :=
  ((splitOnChar '\n' block).filter (fun l => hasPrefixChars "data:".data l)).map
    (fun l => stripLeadingSpaceChar (l.drop 5))

/-- Decoder following the claim text for C2 (`decode`): per-line strip of
at most one literal space. -/
def parseSseDataPayloadSpec (block : List Char) : Option Json :=
  if specDataLineTexts block = [] then none
  else if jsTrim (joinNl (specDataLineTexts block)) = [] then none
  else
    match jsonParse (jsTrim (joinNl (specDataLineTexts block))) with
    | none => none
    | some parsed =>
      if parsed.isObjLike then
        match parsed.getProp "payload".data with
        | some np => if np.isObjLike then some np else some parsed
        | none => some parsed
      else none

/-- Decoder following the claim text for C2 amended: strip at most one
JavaScript whitespace character per data line (matching the source's
`replace(/^\s/, "")`). -/
def parseSseDataPayloadSpecWs (block : List Char) : Option Json :=
  if sseDataLineTexts block = [] then none
  else if jsTrim (joinNl (sseDataLineTexts block)) = [] then none
  else
    match jsonParse (jsTrim (joinNl (sseDataLineTexts block))) with
    | none => none
    | some parsed =>
      if parsed.isObjLike then
        match parsed.getProp "payload".data with
        | some np => if np.isObjLike then some np else some parsed
        | none => some parsed
      else none

/-! ## Source embedding: the Activity Deriver (`deriveSessionActivity`) -/

inductive SessionActivityPhase where
  | idle
  | busy
  | cooldown
deriving Repr, DecidableEq

structure SessionActivity where
  sessionId : List Char
  phase : SessionActivityPhase
deriving Repr, DecidableEq

/-- `v === "s"` for a parsed-JSON value against a string literal. -/
def isStr (v : Option Json) (s : List Char) : Bool :=
  match v with
  | some (.str s') => s' = s
  | _ => false

/-- `info?.sessionID ?? info?.sessionId ?? properties?.sessionID ??
properties?.sessionId`. -/
def sessionIdFrom (info properties : Option Json) : Option Json :=
  jsCoalesce (jsCoalesce (jsCoalesce
    (info.bind (fun x => x.getProp "sessionID".data))
    (info.bind (fun x => x.getProp "sessionId".data)))
    (properties.bind (fun x => x.getProp "sessionID".data)))
    (properties.bind (fun x => x.getProp "sessionId".data))

/-- `deriveSessionActivity` of the source. -/
def deriveSessionActivity (payload : Option Json) : Option SessionActivity :=
  match payload with
  | none => none
  | some p =>
    let type := p.getProp "type".data
    let properties := p.getProp "properties".data
    if isStr type "session.status".data then
      let status := properties.bind (fun x => x.getProp "status".data)
      let sessionId := jsCoalesce (properties.bind (fun x => x.getProp "sessionID".data))
        (properties.bind (fun x => x.getProp "sessionId".data))
      let statusType := status.bind (fun x => x.getProp "type".data)
      match sessionId, statusType with
      | some (.str sid), some (.str st) =>
        if sid ≠ [] then
          some ⟨sid, if st = "busy".data ∨ st = "retry".data
            then SessionActivityPhase.busy else SessionActivityPhase.idle⟩
        else none
      | _, _ => none
    else if isStr type "message.updated".data then
      let info := p.getProp "info".data
      let role := info.bind (fun x => x.getProp "role".data)
      let finish := info.bind (fun x => x.getProp "finish".data)
      match sessionIdFrom info properties with
      | some (.str sid) =>
        if sid ≠ [] ∧ isStr role "assistant".data ∧ isStr finish "stop".data then
          some ⟨sid, SessionActivityPhase.cooldown⟩
        else none
      | _ => none
    else if isStr type "message.complete".data then
      let info := p.getProp "info".data
      let role := info.bind (fun x => x.getProp "role".data)
      let finish := info.bind (fun x => x.getProp "finish".data)
      match sessionIdFrom info properties with
      | some (.str sid) =>
        if sid ≠ [] ∧ isStr role "assistant".data ∧ isStr finish "stop".data then
          some ⟨sid, SessionActivityPhase.cooldown⟩
        else none
      | _ => none
    else if isStr type "session.idle".data then
      match jsCoalesce (properties.bind (fun x => x.getProp "sessionID".data))
        (properties.bind (fun x => x.getProp "sessionId".data)) with
      | some (.str sid) => if sid ≠ [] then some ⟨sid, SessionActivityPhase.idle⟩ else none
      | _ => none
    else none

/-! ## Source embedding: synthetic blocks and the Global-Scope Wrapper -/

def phaseText : SessionActivityPhase → List Char
  | .idle => "idle".data
  | .busy => "busy".data
  | .cooldown => "cooldown".data

/-- Decimal serialization of a timestamp (`JSON.stringify` of the integer
`Date.now()`). -/
def natLex (n : Nat) : List Char := (toString n).data

/-- `buildActivityEventBlock` of the source, with `Date.now()` passed in
as `now`. -/
def buildActivityEventBlock (a : SessionActivity) (now : Nat) : List Char :=
  "event: message\ndata: ".data ++
    (Json.obj (.cons "type".data (.str "openchamber:session-activity".data)
      (.cons "properties".data
        (.obj (.cons "sessionId".data (.str a.sessionId)
          (.cons "phase".data (.str (phaseText a.phase))
            (.cons "at".data (.num (natLex now)) .nil)))) .nil))).stringify

/-- `buildHeartbeatEventBlock` of the source, with `Date.now()` passed in
as `now`. -/
def buildHeartbeatEventBlock (now : Nat) : List Char :=
  "event: message\ndata: ".data ++
    (Json.obj (.cons "type".data (.str "openchamber:heartbeat".data)
      (.cons "properties".data
        (.obj (.cons "at".data (.num (natLex now)) .nil)) .nil))).stringify

/-- `expandSseBlocksWithActivity` of the source: emit each block, followed
by a synthetic activity block when the Activity Deriver produces one. -/
def expandSseBlocksWithActivity (blocks : List (List Char)) (now : Nat) : List (List Char) :=
  blocks.flatMap (fun block =>
    block :: (match deriveSessionActivity (parseSseDataPayload block) with
      | some a => [buildActivityEventBlock a now]
      | none => []))

/-- The wrapped object `{ directory, payload: <decoded payload or null> }`
built by `wrapSseBlocksAsGlobal` for one block. -/
def wrappedGlobalPayload (directory block : List Char) : Json :=
  .obj (.cons "directory".data (.str directory)
    (.cons "payload".data ((parseSseDataPayload block).getD .null) .nil))

/-- The per-block body of `wrapSseBlocksAsGlobal`: decode the block, drop
its data lines, and append one data line carrying `{directory, payload}`. -/
def wrapBlockAsGlobal (directory block : List Char) : List Char :=
  joinNl (((splitOnChar '\n' block).filter
      (fun l => ! hasPrefixChars "data:".data l))
    ++ ["data: ".data ++ (wrappedGlobalPayload directory block).stringify])

/-- `wrapSseBlocksAsGlobal` of the source. -/
def wrapSseBlocksAsGlobal (blocks : List (List Char)) (directory : List Char) : List (List Char) :=
  blocks.map (wrapBlockAsGlobal directory)

example : parseSseDataPayload "event: message\ndata: \x7b\"a\":1\x7d".data
    = some (.obj (.cons ['a'] (.num ['1']) .nil)) := rfl

example : deriveSessionActivity (some (.obj (.cons "type".data (.str "session.idle".data)
    (.cons "properties".data (.obj (.cons "sessionID".data (.str "s9".data) .nil)) .nil))))
    = some ⟨"s9".data, .idle⟩ := rfl

/-! ## Source embedding: header construction (`_buildSseHeaders`) -/

/-- First-match lookup in a JavaScript-object model (keys unique by
construction). -/
def recLookup : List (List Char × List Char) → List Char → Option (List Char)
  | [], _ => none
  | (k, v) :: tl, key => if k = key then some v else recLookup tl key

/-- JavaScript property assignment on an object literal: an existing key
keeps its position and gets the new value, a new key is appended. -/
def jsRecordSet : List (List Char × List Char) → List Char → List Char → List (List Char × List Char)
  | [], k, v => [(k, v)]
  | (k', v') :: tl, k, v =>
    if k' = k then (k', v) :: tl else (k', v') :: jsRecordSet tl k v

/-- Object spread `{...base, ...extra}`: assign every field of `extra`
over `base`, left to right. -/
def jsSpread (base extra : List (List Char × List Char)) : List (List Char × List Char) :=
  extra.foldl (fun acc kv => jsRecordSet acc kv.1 kv.2) base

/-- The three fixed SSE request headers of `_buildSseHeaders`. -/
def fixedSseHeaders : List (List Char × List Char) :=
  [("Accept".data, "text/event-stream".data),
   ("Cache-Control".data, "no-cache".data),
   ("Connection".data, "keep-alive".data)]

/-- `_buildSseHeaders` of the source:
`{ Accept: ..., "Cache-Control": ..., Connection: ..., ...(extra || {}) }`. -/
def buildSseHeaders (extra : List (List Char × List Char)) : List (List Char × List Char) :=
  jsSpread fixedSseHeaders extra

/-! ## Source embedding: panel registry, stop, dispose, heartbeat -/

structure PanelMaps where
  sseStreams : List (List Char)
  sseHeartbeats : List (List Char)
deriving Repr, DecidableEq

/-- The registry (`_panels`) together with the observable state of the
abort controllers and interval timers owned by the panels: a stream id is
in `aborted` once its controller's `abort()` ran, and in `liveTimers`
while its interval has not been cleared. -/
structure SseSystem where
  panels : List (List Char × PanelMaps)
  aborted : List (List Char)
  liveTimers : List (List Char)
deriving Repr, DecidableEq

def lookupPanel (sys : SseSystem) (pid : List Char) : Option PanelMaps :=
  match sys.panels.find? (fun kv => kv.1 = pid) with
  | some kv => some kv.2
  | none => none

/-- `_disposePanel` of the source: abort every owned stream's controller,
clear every owned heartbeat timer, clear both maps and delete the panel
entry; a missing panel id is a no-op. -/
def disposePanel (sys : SseSystem) (pid : List Char) : SseSystem :=
  match lookupPanel sys pid with
  | none => sys
  | some entry =>
    { panels := sys.panels.filter (fun kv => decide (kv.1 ≠ pid))
      aborted := sys.aborted ++ entry.sseStreams
      liveTimers := sys.liveTimers.filter (fun t => decide (t ∉ entry.sseHeartbeats)) }

inductive OutMsg where
  | chunk (streamId : List Char) (text : List Char)
  | endMsg (streamId : List Char) (error : Option (List Char))
deriving Repr, DecidableEq

/-- Models the external panel surface (§6 of the spec): `postMessage`
reaches the webview only while the panel is registered; posting to a
disposed panel delivers nothing. -/
def postToPanel (sys : SseSystem) (pid : List Char) (msg : OutMsg) : Option OutMsg :=
  if (lookupPanel sys pid).isSome then some msg else none

/-- Whether a stream's controller has been aborted
(`controller.signal.aborted`). -/
def streamAborted (sys : SseSystem) (sid : List Char) : Bool :=
  decide (sid ∈ sys.aborted)

/-- The heartbeat interval callback of `_startSseProxy`: check the
cancellation flag first; when not aborted, post one standalone chunk
holding exactly the heartbeat block with its terminator. -/
def heartbeatTick (aborted : Bool) (streamId : List Char) (now : Nat) : Option OutMsg :=
  if aborted then none
  else some (.chunk streamId (buildHeartbeatEventBlock now ++ ['\n', '\n']))

structure StopData where
  stopped : Bool
deriving Repr, DecidableEq

structure StopResponse where
  success : Bool
  data : StopData
deriving Repr, DecidableEq

/-- The per-panel state the stop handler closes over. -/
structure StreamOwnership where
  entry : PanelMaps
  aborted : List (List Char)
  liveTimers : List (List Char)
deriving Repr, DecidableEq

/-- `_stopSseProxy` of the source: when the payload carries a non-empty
stream id that matches an active stream, abort its controller and remove
it; clear and remove its heartbeat timer when present; always acknowledge
with `{stopped: true}`. -/
def stopSseProxy (st : StreamOwnership) (streamId? : Option (List Char)) :
    StopResponse × StreamOwnership :=
  match streamId? with
  | some sid =>
    if sid ≠ [] then
      let st1 :=
        if sid ∈ st.entry.sseStreams then
          { st with
            aborted := st.aborted ++ [sid]
            entry := { st.entry with
              sseStreams := st.entry.sseStreams.filter (fun t => decide (t ≠ sid)) } }
        else st
      let st2 :=
        if sid ∈ st1.entry.sseHeartbeats then
          { st1 with
            liveTimers := st1.liveTimers.filter (fun t => decide (t ≠ sid))
            entry := { st1.entry with
              sseHeartbeats := st1.entry.sseHeartbeats.filter (fun t => decide (t ≠ sid)) } }
        else st1
      (⟨true, ⟨true⟩⟩, st2)
    else (⟨true, ⟨true⟩⟩, st)
  | none => (⟨true, ⟨true⟩⟩, st)

/-! ## Source embedding: the start protocol (`_startSseProxy`) -/

structure UpstreamResponse where
  status : Nat
  hasBody : Bool
  headers : List (List Char × List Char)
deriving Repr, DecidableEq

/-- `Response.ok` of the fetch API: status in the 2xx range. -/
def UpstreamResponse.ok (r : UpstreamResponse) : Bool :=
  decide (200 ≤ r.status ∧ r.status ≤ 299)

/-- Outcome of one upstream `fetch` call: a response, or a thrown error
carrying its message text. -/
inductive FetchOutcome where
  | success (r : UpstreamResponse)
  | failure (message : List Char)
deriving Repr, DecidableEq

structure StartData where
  status : Nat
  headers : List (List Char × List Char)
  streamId : Option (List Char)
  error : Option (List Char)
deriving Repr, DecidableEq

structure StartResponse where
  success : Bool
  data : StartData
deriving Repr, DecidableEq

/-- Path normalization of `_startSseProxy`:
`typeof path === 'string' && path.trim().length > 0 ? path.trim() : '/event'`. -/
def normalizeSsePath (path? : Option (List Char)) : List Char :=
  match path? with
  | some p => if jsTrim p ≠ [] then jsTrim p else "/event".data
  | none => "/event".data

def ctJsonHeaders : List (List Char × List Char) :=
  [("content-type".data, "application/json".data)]

/-- Tail of `_startSseProxy` once a final response is chosen: a non-OK or
body-less response is answered with the upstream status, the collected
headers, a null stream id and a descriptive error; on success the stream
is registered and, for an activity-tracking path, a heartbeat timer is
started under the same id. -/
def startFinalize (r : UpstreamResponse) (wrapped tracking : Bool) (streamId : List Char)
    (entry : PanelMaps) : StartResponse × PanelMaps × Bool :=
  if ¬ (r.ok = true ∧ r.hasBody = true) then
    (⟨true, ⟨r.status, r.headers, none, some ("SSE failed: ".data ++ natLex r.status)⟩⟩,
     entry, wrapped)
  else
    (⟨true, ⟨r.status, r.headers, some streamId, none⟩⟩,
     { entry with
       sseStreams := entry.sseStreams ++ [streamId]
       sseHeartbeats := if tracking then entry.sseHeartbeats ++ [streamId]
         else entry.sseHeartbeats },
     wrapped)

/-- The decision structure of `_startSseProxy`, with the two possible
upstream fetches supplied as oracle outcomes `o1` (the requested path)
and `o2` (the `/event` fallback).  Returns the control response, the
updated panel maps, and whether the stream is in wrapped mode. -/
def startSseProxy (apiBaseUrl : Option (List Char)) (path? : Option (List Char))
    (o1 o2 : FetchOutcome) (streamId : List Char) (entry : PanelMaps) :
    StartResponse × PanelMaps × Bool :=
  let normalizedPath := normalizeSsePath path?
  let shouldInjectActivity :=
    normalizedPath = "/event".data ∨ normalizedPath = "/global/event".data
  match apiBaseUrl with
  | none => (⟨true, ⟨503, ctJsonHeaders, none, none⟩⟩, entry, false)
  | some _ =>
    match o1 with
    | .failure m => (⟨true, ⟨502, ctJsonHeaders, none, some m⟩⟩, entry, false)
    | .success r1 =>
      if ¬ (r1.ok = true ∧ r1.hasBody = true) ∧ normalizedPath = "/global/event".data then
        match o2 with
        | .failure m => (⟨true, ⟨502, ctJsonHeaders, none, some m⟩⟩, entry, false)
        | .success r2 =>
          startFinalize r2 (r2.ok = true ∧ r2.hasBody = true : Bool)
            (shouldInjectActivity : Bool) streamId entry
      else startFinalize r1 false (shouldInjectActivity : Bool) streamId entry

/-! ## Source embedding: the relay read loop of `_startSseProxy` -/

structure RelayConfig where
  tracking : Bool
  wrapped : Bool
  directory : List Char
deriving Repr, DecidableEq

/-- One successful upstream read delivering `chunk` (already decoded to
text): skip empty chunks; otherwise normalize CRLF when activity tracking
is on, append to the residual buffer, split on the blank-line separator,
retain the final fragment, and emit all complete blocks (wrapped and/or
expanded) as one outbound chunk message. -/
def relayStep (cfg : RelayConfig) (now : Nat) (buffer chunk : List Char) :
    List (List Char) × List Char :=
  if chunk = [] then ([], buffer)
  else
    let buf := buffer ++ (if cfg.tracking then normalizeCRLF chunk else chunk)
    let blocks := splitBlocks buf
    let buffer' := blocks.getLastD []
    let complete := blocks.dropLast
    if complete = [] then ([], buffer')
    else
      let routed := if cfg.wrapped then wrapSseBlocksAsGlobal complete cfg.directory
        else complete
      let outbound := if cfg.tracking then expandSseBlocksWithActivity routed now else routed
      ([terminateBlocks outbound], buffer')

/-- The read loop over a whole sequence of upstream chunks, starting from
a residual buffer: returns the posted chunk texts and the final buffer. -/
def relayRun (cfg : RelayConfig) (now : Nat) :
    List (List Char) → List Char → List (List Char) × List Char
  | [], buffer => ([], buffer)
  | chunk :: rest, buffer =>
    let step := relayStep cfg now buffer chunk
    let run := relayRun cfg now rest step.2
    (step.1 ++ run.1, run.2)

/-- End-of-stream flush: a non-empty residual buffer is emitted, through
the wrap/expand pipeline (with the block terminator appended) when
activity tracking is on, and verbatim otherwise. -/
def relayFinish (cfg : RelayConfig) (now : Nat) (buffer : List Char) : List (List Char) :=
  if buffer = [] then []
  else if cfg.tracking then
    let baseBlocks := if cfg.wrapped then wrapSseBlocksAsGlobal [buffer] cfg.directory
      else [buffer]
    [terminateBlocks (expandSseBlocksWithActivity baseBlocks now)]
  else [buffer]

/-- All chunk texts a stream posts for a given upstream chunk sequence:
the per-read emissions followed by the end-of-stream flush. -/
def relayMessages (cfg : RelayConfig) (now : Nat) (chunks : List (List Char)) :
    List (List Char) :=
  let run := relayRun cfg now chunks []
  run.1 ++ relayFinish cfg now run.2

/-! ## Claim C8: header merge precedence -/

theorem recLookup_set_self : ∀ (r : List (List Char × List Char)) (k : List Char) (v : List Char),
    recLookup (jsRecordSet r k v) k = some v
  | [], k, v => by simp [jsRecordSet, recLookup]
  | (k', v') :: tl, k, v => by
    rw [show jsRecordSet ((k', v') :: tl) k v
      = if k' = k then (k', v) :: tl else (k', v') :: jsRecordSet tl k v from by
        rw [jsRecordSet.eq_def]]
    by_cases hk : k' = k
    · rw [if_pos hk]
      simp [recLookup, hk]
    · rw [if_neg hk]
      simp [recLookup, hk, recLookup_set_self tl k v]

theorem recLookup_set_other : ∀ (r : List (List Char × List Char)) (k' k : List Char)
    (v : List Char), k' ≠ k → recLookup (jsRecordSet r k' v) k = recLookup r k
  | [], k', k, v, h => by simp [jsRecordSet, recLookup, h]
  | (k0, v0) :: tl, k', k, v, h => by
    rw [show jsRecordSet ((k0, v0) :: tl) k' v
      = if k0 = k' then (k0, v) :: tl else (k0, v0) :: jsRecordSet tl k' v from by
        rw [jsRecordSet.eq_def]]
    by_cases hk : k0 = k'
    · rw [if_pos hk]
      subst hk
      simp [recLookup, h]
    · rw [if_neg hk]
      by_cases h2 : k0 = k
      · simp [recLookup, h2]
      · simp [recLookup, h2, recLookup_set_other tl k' k v h]

theorem recLookup_none_of_not_mem : ∀ {r : List (List Char × List Char)} {k : List Char},
    k ∉ r.map Prod.fst → recLookup r k = none
  | [], k, _ => rfl
  | (k0, v0) :: tl, k, h => by
    simp only [List.map_cons, List.mem_cons] at h
    push_neg at h
    simp only [recLookup]
    rw [if_neg (by exact fun hh => h.1 hh.symm)]
    exact recLookup_none_of_not_mem h.2

theorem jsSpread_lookup : ∀ (extra base : List (List Char × List Char)) (k : List Char),
    (extra.map Prod.fst).Nodup →
    recLookup (jsSpread base extra) k = (recLookup extra k).or (recLookup base k)
  | [], base, k, _ => by simp [jsSpread, recLookup, Option.or]
  | (k0, v0) :: rest, base, k, hnodup => by
    simp only [List.map_cons, List.nodup_cons] at hnodup
    have hstep : jsSpread base ((k0, v0) :: rest) = jsSpread (jsRecordSet base k0 v0) rest := rfl
    rw [hstep, jsSpread_lookup rest (jsRecordSet base k0 v0) k hnodup.2]
    by_cases hk : k0 = k
    · subst hk
      rw [recLookup_none_of_not_mem hnodup.1]
      simp [recLookup, recLookup_set_self, Option.or]
    · rw [recLookup_set_other base k0 k v0 hk]
      simp [recLookup, hk]

/-- C8: for every caller-supplied header map, the upstream request headers
are the three fixed SSE headers with the caller map spread after them:
on key collision the caller-supplied value takes precedence over the
fixed value, and a fixed header's value is the one used exactly on the
keys the caller map does not contain. -/
theorem sse_header_merge_precedence :
    ∀ (extra : List (List Char × List Char)), (extra.map Prod.fst).Nodup →
      (∀ k, recLookup (buildSseHeaders extra) k
        = (recLookup extra k).or (recLookup fixedSseHeaders k)) ∧
      (∀ k v, recLookup extra k = some v → recLookup (buildSseHeaders extra) k = some v) ∧
      (∀ k, recLookup extra k = none →
        recLookup (buildSseHeaders extra) k = recLookup fixedSseHeaders k) := by
  intro extra hnodup
  have hmain : ∀ k, recLookup (buildSseHeaders extra) k
      = (recLookup extra k).or (recLookup fixedSseHeaders k) := by
    intro k
    exact jsSpread_lookup extra fixedSseHeaders k hnodup
  refine ⟨hmain, ?_, ?_⟩
  · intro k v hv
    rw [hmain k, hv]
    rfl
  · intro k hv
    rw [hmain k, hv]
    rfl

/-- C8 witness: a caller map overriding `Accept` takes precedence, and the
untouched fixed headers survive. -/
theorem sse_header_merge_precedence_witness :
    recLookup (buildSseHeaders [("Accept".data, "text/plain".data)]) "Accept".data
      = some "text/plain".data ∧
    recLookup (buildSseHeaders [("Accept".data, "text/plain".data)]) "Connection".data
      = some "keep-alive".data := by
  have h := sse_header_merge_precedence [("Accept".data, "text/plain".data)] (by decide)
  constructor
  · exact h.2.1 "Accept".data "text/plain".data (by decide)
  · rw [h.2.2 "Connection".data (by decide)]
    decide

/-! ## Claim C9: heartbeat ticks check cancellation first -/

/-- C9: a heartbeat tick that fires after the stream's cancellation flag
is set posts no message (and, being a total function, raises no error);
a tick before cancellation posts one standalone chunk message holding
exactly the heartbeat block with its terminator — built independently of
any relay buffering state. -/
theorem heartbeat_tick_cancellation :
    ∀ (sid : List Char) (now : Nat),
      heartbeatTick true sid now = none ∧
      heartbeatTick false sid now
        = some (.chunk sid (buildHeartbeatEventBlock now ++ ['\n', '\n'])) := by
  intro sid now
  exact ⟨rfl, rfl⟩

/-! ## Claim C7: stop is idempotent and total -/

/-- C7: stop is idempotent and total: every stop request — matching,
unknown, already stopped, absent or empty stream id — is answered with the
success acknowledgment `{stopped: true}` (and, being a total function,
never throws); when the given non-empty id matches an active stream, its
controller is aborted and the stream is removed from the active set, and
its heartbeat timer, when present, is cleared and removed. -/
theorem stop_sse_proxy_total :
    ∀ (st : StreamOwnership) (streamId? : Option (List Char)),
      (stopSseProxy st streamId?).1 = ⟨true, ⟨true⟩⟩ ∧
      (∀ sid, streamId? = some sid → sid ≠ [] → sid ∈ st.entry.sseStreams →
        sid ∈ (stopSseProxy st streamId?).2.aborted ∧
        sid ∉ (stopSseProxy st streamId?).2.entry.sseStreams) ∧
      (∀ sid, streamId? = some sid → sid ≠ [] → sid ∈ st.entry.sseHeartbeats →
        sid ∉ (stopSseProxy st streamId?).2.liveTimers ∧
        sid ∉ (stopSseProxy st streamId?).2.entry.sseHeartbeats) := by
  intro st streamId?
  cases streamId? with
  | none =>
    refine ⟨rfl, ?_, ?_⟩ <;> (intro sid hq; cases hq)
  | some sid =>
    refine ⟨?_, ?_, ?_⟩
    · by_cases hne : sid ≠ []
      · simp only [stopSseProxy, if_pos hne]
      · simp only [stopSseProxy, if_neg hne]
    · intro s hq hne hmem
      cases hq
      simp only [stopSseProxy, if_pos hne, if_pos hmem]
      constructor
      · split <;> simp [List.mem_append]
      · split <;> simp [List.mem_filter]
    · intro s hq hne hmem
      cases hq
      simp only [stopSseProxy, if_pos hne]
      by_cases hs : sid ∈ st.entry.sseStreams
      · simp only [if_pos hs, if_pos hmem]
        simp [List.mem_filter]
      · simp only [if_neg hs, if_pos hmem]
        simp [List.mem_filter]

/-- C7 witness: stopping a live stream with its heartbeat, and stopping an
unknown id, both acknowledge `{stopped: true}`; the live stream's
controller is aborted, its map entries and timer removed. -/
theorem stop_sse_proxy_total_witness :
    (stopSseProxy ⟨⟨["s1".data], ["s1".data]⟩, [], ["s1".data]⟩ (some "s1".data)).1
      = ⟨true, ⟨true⟩⟩ ∧
    "s1".data ∈ (stopSseProxy ⟨⟨["s1".data], ["s1".data]⟩, [], ["s1".data]⟩
      (some "s1".data)).2.aborted ∧
    "s1".data ∉ (stopSseProxy ⟨⟨["s1".data], ["s1".data]⟩, [], ["s1".data]⟩
      (some "s1".data)).2.liveTimers ∧
    (stopSseProxy ⟨⟨[], []⟩, [], []⟩ (some "zz".data)).1 = ⟨true, ⟨true⟩⟩ := by
  have h1 := stop_sse_proxy_total ⟨⟨["s1".data], ["s1".data]⟩, [], ["s1".data]⟩ (some "s1".data)
  have h2 := stop_sse_proxy_total ⟨⟨[], []⟩, [], []⟩ (some "zz".data)
  refine ⟨h1.1, ?_, ?_, h2.1⟩
  · exact (h1.2.1 "s1".data rfl (by decide) (by decide)).1
  · exact (h1.2.2 "s1".data rfl (by decide) (by decide)).1

/-! ## Claim C5: panel disposal releases all owned resources -/

theorem lookupPanel_dispose_none (sys : SseSystem) (pid : List Char) :
    lookupPanel (disposePanel sys pid) pid = none := by
  rw [disposePanel.eq_def]
  cases hl : lookupPanel sys pid with
  | none => exact hl
  | some entry =>
    simp only [lookupPanel]
    rw [List.find?_eq_none.mpr]
    intro kv hkv
    rw [List.mem_filter] at hkv
    simp only [decide_eq_true_eq] at hkv
    simpa using hkv.2

/-- C5: disposing a registered panel aborts every owned stream's
cancellation handle, clears every owned heartbeat timer, and removes the
panel entry (with its two maps) from the registry, synchronously in the
state transition; consequently a later heartbeat tick for any owned
stream is a no-op, and no further chunk or end message can be delivered
to that panel, since the external panel surface drops posts to a
disposed panel. -/
theorem dispose_panel_releases_all :
    ∀ (sys : SseSystem) (pid : List Char) (entry : PanelMaps),
      lookupPanel sys pid = some entry →
      (∀ s ∈ entry.sseStreams, streamAborted (disposePanel sys pid) s = true) ∧
      (∀ t ∈ entry.sseHeartbeats, t ∉ (disposePanel sys pid).liveTimers) ∧
      lookupPanel (disposePanel sys pid) pid = none ∧
      (∀ s ∈ entry.sseStreams, ∀ now,
        heartbeatTick (streamAborted (disposePanel sys pid) s) s now = none) ∧
      (∀ msg, postToPanel (disposePanel sys pid) pid msg = none) := by
  intro sys pid entry hl
  have hdisp : disposePanel sys pid =
      { panels := sys.panels.filter (fun kv => decide (kv.1 ≠ pid))
        aborted := sys.aborted ++ entry.sseStreams
        liveTimers := sys.liveTimers.filter (fun t => decide (t ∉ entry.sseHeartbeats)) } := by
    rw [disposePanel.eq_def, hl]
  have haborts : ∀ s ∈ entry.sseStreams, streamAborted (disposePanel sys pid) s = true := by
    intro s hs
    rw [hdisp]
    simp [streamAborted, List.mem_append, hs]
  refine ⟨haborts, ?_, lookupPanel_dispose_none sys pid, ?_, ?_⟩
  · intro t ht
    rw [hdisp]
    simp [List.mem_filter, ht]
  · intro s hs now
    rw [haborts s hs]
    rfl
  · intro msg
    rw [postToPanel, lookupPanel_dispose_none sys pid]
    rfl

/-- C5 witness: disposing a panel owning two active streams and one
heartbeat timer (the spec's example) aborts both stream handles, clears
the timer, removes the entry, silences later ticks, and drops later
posts. -/
theorem dispose_panel_releases_all_witness :
    (∀ s ∈ ["s1".data, "s2".data],
      streamAborted (disposePanel ⟨[("p".data, ⟨["s1".data, "s2".data], ["s1".data]⟩)],
        [], ["s1".data]⟩ "p".data) s = true) ∧
    "s1".data ∉ (disposePanel ⟨[("p".data, ⟨["s1".data, "s2".data], ["s1".data]⟩)],
        [], ["s1".data]⟩ "p".data).liveTimers ∧
    lookupPanel (disposePanel ⟨[("p".data, ⟨["s1".data, "s2".data], ["s1".data]⟩)],
        [], ["s1".data]⟩ "p".data) "p".data = none ∧
    (∀ msg, postToPanel (disposePanel ⟨[("p".data, ⟨["s1".data, "s2".data], ["s1".data]⟩)],
        [], ["s1".data]⟩ "p".data) "p".data msg = none) := by
  have h := dispose_panel_releases_all
    ⟨[("p".data, ⟨["s1".data, "s2".data], ["s1".data]⟩)], [], ["s1".data]⟩
    "p".data ⟨["s1".data, "s2".data], ["s1".data]⟩ (by decide)
  exact ⟨h.1, h.2.1 "s1".data (by decide), h.2.2.1, h.2.2.2.2⟩

/-! ## Claim C6: failed starts are absorbed into success responses -/

/-- C6: every failed start request is answered with a `success = true`
control response and never a thrown exception (the model is a total
function), with no stream registered and the panel's stream and timer
maps unchanged: no backend base URL gives a synthetic 503 with null
stream id; a thrown fetch (on the first attempt, or on the `/global/event`
fallback attempt) gives a synthetic 502 with null stream id and the
failure's message text; a non-OK or body-less response after the fallback
logic gives the upstream status code, the collected upstream headers, a
null stream id and a descriptive error string. -/
theorem start_sse_proxy_failures :
    ∀ (path? : Option (List Char)) (o1 o2 : FetchOutcome) (sid : List Char)
      (entry : PanelMaps),
      (startSseProxy none path? o1 o2 sid entry
        = (⟨true, ⟨503, ctJsonHeaders, none, none⟩⟩, entry, false)) ∧
      (∀ base m, o1 = .failure m →
        startSseProxy (some base) path? o1 o2 sid entry
          = (⟨true, ⟨502, ctJsonHeaders, none, some m⟩⟩, entry, false)) ∧
      (∀ base r1 m, o1 = .success r1 → ¬ (r1.ok = true ∧ r1.hasBody = true) →
        normalizeSsePath path? = "/global/event".data → o2 = .failure m →
        startSseProxy (some base) path? o1 o2 sid entry
          = (⟨true, ⟨502, ctJsonHeaders, none, some m⟩⟩, entry, false)) ∧
      (∀ base r1, o1 = .success r1 → ¬ (r1.ok = true ∧ r1.hasBody = true) →
        normalizeSsePath path? ≠ "/global/event".data →
        startSseProxy (some base) path? o1 o2 sid entry
          = (⟨true, ⟨r1.status, r1.headers, none,
              some ("SSE failed: ".data ++ natLex r1.status)⟩⟩, entry, false)) ∧
      (∀ base r1 r2, o1 = .success r1 → ¬ (r1.ok = true ∧ r1.hasBody = true) →
        normalizeSsePath path? = "/global/event".data → o2 = .success r2 →
        ¬ (r2.ok = true ∧ r2.hasBody = true) →
        (startSseProxy (some base) path? o1 o2 sid entry).1
          = ⟨true, ⟨r2.status, r2.headers, none,
              some ("SSE failed: ".data ++ natLex r2.status)⟩⟩ ∧
        (startSseProxy (some base) path? o1 o2 sid entry).2.1 = entry) := by
  intro path? o1 o2 sid entry
  refine ⟨rfl, ?_, ?_, ?_, ?_⟩
  · intro base m h1
    subst h1
    rfl
  · intro base r1 m h1 hok hpath h2
    subst h1
    subst h2
    simp only [startSseProxy]
    rw [if_pos ⟨hok, hpath⟩]
  · intro base r1 h1 hok hpath
    subst h1
    simp only [startSseProxy]
    rw [if_neg (by
      rintro ⟨_, hp⟩
      exact hpath hp)]
    rw [startFinalize, if_pos hok]
  · intro base r1 r2 h1 hok hpath h2 hok2
    subst h1
    subst h2
    simp only [startSseProxy]
    rw [if_pos ⟨hok, hpath⟩]
    rw [startFinalize, if_pos hok2]
    exact ⟨rfl, rfl⟩

/-- C6 witness: the three failure shapes at concrete inputs — no base
URL, a thrown fetch, and a 500 upstream response without fallback — all
return `success = true`, a null stream id and untouched maps. -/
theorem start_sse_proxy_failures_witness :
    (startSseProxy none none (.failure "x".data) (.failure "x".data) "sse_1".data ⟨[], []⟩
      = (⟨true, ⟨503, ctJsonHeaders, none, none⟩⟩, ⟨[], []⟩, false)) ∧
    (startSseProxy (some "http://h".data) none (.failure "boom".data) (.failure "x".data)
      "sse_1".data ⟨[], []⟩
      = (⟨true, ⟨502, ctJsonHeaders, none, some "boom".data⟩⟩, ⟨[], []⟩, false)) ∧
    (startSseProxy (some "http://h".data) none (.success ⟨500, true, []⟩) (.failure "x".data)
      "sse_1".data ⟨[], []⟩
      = (⟨true, ⟨500, [], none, some "SSE failed: 500".data⟩⟩, ⟨[], []⟩, false)) := by
  have h1 := start_sse_proxy_failures none (.failure "x".data) (.failure "x".data)
    "sse_1".data ⟨[], []⟩
  have h2 := start_sse_proxy_failures none (.failure "boom".data) (.failure "x".data)
    "sse_1".data ⟨[], []⟩
  have h3 := start_sse_proxy_failures none (.success ⟨500, true, []⟩) (.failure "x".data)
    "sse_1".data ⟨[], []⟩
  refine ⟨h1.1, ?_, ?_⟩
  · exact h2.2.1 "http://h".data "boom".data rfl
  · have := h3.2.2.2.1 "http://h".data ⟨500, true, []⟩ rfl (by decide) (by decide)
    rw [this]
    rfl

/-! ## Claim C10: array payloads are returned, not rejected -/

/-- C10: whenever the joined and trimmed data text of a block parses as a
JSON array, the decoder returns that array value rather than `null` — the
"non-object parse results return null" rule rejects only primitives,
because an array satisfies the code's `typeof === "object"` check and,
carrying no `payload` property, is returned unchanged. -/
theorem decode_returns_arrays :
    ∀ (block : List Char) (xs : JsonItems),
      jsonParse (jsTrim (joinNl (sseDataLineTexts block))) = some (.arr xs) →
      parseSseDataPayload block = some (.arr xs) := by
  intro block xs h
  by_cases hb : block = []
  · subst hb
    rw [show jsonParse (jsTrim (joinNl (sseDataLineTexts []))) = none from rfl] at h
    cases h
  · rw [parseSseDataPayload, if_neg hb]
    by_cases h1 : sseDataLineTexts block = []
    · rw [h1] at h
      rw [show jsonParse (jsTrim (joinNl ([] : List (List Char)))) = none from rfl] at h
      cases h
    · rw [if_neg h1]
      by_cases h2 : jsTrim (joinNl (sseDataLineTexts block)) = []
      · rw [h2] at h
        rw [show jsonParse ([] : List Char) = none from rfl] at h
        cases h
      · rw [if_neg h2, h]
        rfl

/-- C10 witness: `decode("data: [1,2]")` returns the array `[1, 2]`. -/
theorem decode_returns_arrays_witness :
    parseSseDataPayload "data: [1,2]".data
      = some (.arr (.cons (.num ['1']) (.cons (.num ['2']) .nil))) := by
  exact decode_returns_arrays "data: [1,2]".data
    (.cons (.num ['1']) (.cons (.num ['2']) .nil)) (by rfl)

/-! ## Claim C2: the decoder, as the claim words it -/

/-- C2 counterexample: the claim says the decoder strips "at most one
following space per line"; the source strips any one character of the
JavaScript `\s` class.  On a block whose second data line starts with a
vertical-tab character (U+000B, in `\s` but not a space and not JSON
whitespace), the source decodes `{a: 1}` while the claim's description
fails to parse and returns `null`. -/
theorem decode_spec_mismatch :
    parseSseDataPayload "data: \x7b\"a\":\ndata:\x0b1\x7d".data
      = some (.obj (.cons ['a'] (.num ['1']) .nil)) ∧
    parseSseDataPayloadSpec "data: \x7b\"a\":\ndata:\x0b1\x7d".data = none := by
  exact ⟨rfl, rfl⟩

/-- C2 amended: with "space" read as "whitespace character" (the
JavaScript `\s` class), the claim describes the decoder exactly: the
decoder equals, on every input string, the claim-shaped pipeline — split
into lines, keep the `data:`-prefixed lines, strip the prefix and at most
one following whitespace character, rejoin, trim, JSON-parse, return null
on no data lines, empty text, a failed parse or a primitive result, and
unwrap one nested object-typed `payload` field; the claim's three
concrete examples also hold, and the decoder is a total function (never
throws). -/
theorem decode_matches_amended_claim :
    (∀ block, parseSseDataPayload block = parseSseDataPayloadSpecWs block) ∧
    parseSseDataPayload "event: message\ndata: \x7b\"a\":1\x7d\n\n".data
      = some (.obj (.cons ['a'] (.num ['1']) .nil)) ∧
    parseSseDataPayload "no data here\n\n".data = none ∧
    parseSseDataPayload "data: not json\n\n".data = none := by
  refine ⟨?_, rfl, rfl, rfl⟩
  intro block
  by_cases hb : block = []
  · subst hb
    rfl
  · rw [parseSseDataPayload, if_neg hb, parseSseDataPayloadSpecWs]

/-! ## Claim C3: the Activity Deriver, characterized -/

/-- The claim's `session.status` case: the event type is
`session.status`, `properties.status.type` is a string, and
`properties.sessionID/sessionId` resolves to a non-empty string; the
phase is busy for `busy`/`retry` status types and idle otherwise. -/
def claimStatusCase (p : Json) (a : SessionActivity) : Prop :=
  isStr (p.getProp "type".data) "session.status".data = true ∧
  ∃ st, ((p.getProp "properties".data).bind (fun x => x.getProp "status".data)).bind
      (fun x => x.getProp "type".data) = some (.str st) ∧
    jsCoalesce ((p.getProp "properties".data).bind (fun x => x.getProp "sessionID".data))
      ((p.getProp "properties".data).bind (fun x => x.getProp "sessionId".data))
      = some (.str a.sessionId) ∧
    a.sessionId ≠ [] ∧
    a.phase = (if st = "busy".data ∨ st = "retry".data
      then SessionActivityPhase.busy else SessionActivityPhase.idle)

/-- The claim's `message.updated`/`message.complete` case: `info.role` is
`assistant`, `info.finish` is `stop`, and a session id resolves (as a
non-empty string) from `info.sessionID/sessionId` falling back to
`properties.sessionID/sessionId`; the phase is cooldown. -/
def claimMessageCase (ty : List Char) (p : Json) (a : SessionActivity) : Prop :=
  isStr (p.getProp "type".data) ty = true ∧
  isStr ((p.getProp "info".data).bind (fun x => x.getProp "role".data)) "assistant".data = true ∧
  isStr ((p.getProp "info".data).bind (fun x => x.getProp "finish".data)) "stop".data = true ∧
  sessionIdFrom (p.getProp "info".data) (p.getProp "properties".data)
    = some (.str a.sessionId) ∧
  a.sessionId ≠ [] ∧
  a.phase = SessionActivityPhase.cooldown

/-- The claim's `session.idle` case: `properties.sessionID/sessionId`
resolves to a non-empty string; the phase is idle. -/
def claimIdleCase (p : Json) (a : SessionActivity) : Prop :=
  isStr (p.getProp "type".data) "session.idle".data = true ∧
  jsCoalesce ((p.getProp "properties".data).bind (fun x => x.getProp "sessionID".data))
    ((p.getProp "properties".data).bind (fun x => x.getProp "sessionId".data))
    = some (.str a.sessionId) ∧
  a.sessionId ≠ [] ∧
  a.phase = SessionActivityPhase.idle

theorem isStr_eq {v : Option Json} {s : List Char} (h : isStr v s = true) :
    v = some (.str s) := by
  match v with
  | none => cases h
  | some (.str s') =>
    have : s' = s := by simpa [isStr] using h
    rw [this]
  | some .null | some (.bool _) | some (.num _) | some (.arr _) | some (.obj _) => cases h

/-- C3: the Activity Deriver returns an activity exactly in the claim's
four cases — `session.status` (busy for busy/retry status, idle
otherwise), `message.updated` and `message.complete` with an assistant
role and stop finish (cooldown), and `session.idle` (idle) — and null in
every other situation: any missing or malformed field makes its case,
and with it the whole derivation, fail to null, never to a partial
result.  The claim's two concrete vectors close the statement. -/
theorem derive_session_activity_characterization :
    (∀ (payload : Option Json) (a : SessionActivity),
      deriveSessionActivity payload = some a ↔
      ∃ p, payload = some p ∧
        (claimStatusCase p a ∨ claimMessageCase "message.updated".data p a ∨
         claimMessageCase "message.complete".data p a ∨ claimIdleCase p a)) ∧
    deriveSessionActivity (some (.obj (.cons "type".data (.str "message.complete".data)
      (.cons "info".data (.obj (.cons "sessionID".data (.str "s2".data)
        (.cons "role".data (.str "assistant".data)
          (.cons "finish".data (.str "stop".data) .nil)))) .nil))))
      = some ⟨"s2".data, .cooldown⟩ ∧
    deriveSessionActivity (some (.obj (.cons "type".data (.str "message.complete".data)
      (.cons "info".data (.obj (.cons "sessionID".data (.str "s2".data)
        (.cons "role".data (.str "user".data)
          (.cons "finish".data (.str "stop".data) .nil)))) .nil))))
      = none := by
  refine ⟨?_, rfl, rfl⟩
  intro payload a
  constructor
  · intro h
    match payload with
    | none => cases h
    | some p =>
      refine ⟨p, rfl, ?_⟩
      rw [deriveSessionActivity.eq_def] at h
      simp only [] at h
      by_cases h1 : isStr (p.getProp "type".data) "session.status".data = true
      · left
        rw [if_pos h1] at h
        split at h
        next sid st hm1 hm2 =>
          split at h
          next hne =>
            cases h
            exact ⟨h1, st, hm2, hm1, hne, rfl⟩
          next => cases h
        next => cases h
      · rw [if_neg h1] at h
        by_cases h2 : isStr (p.getProp "type".data) "message.updated".data = true
        · right; left
          rw [if_pos h2] at h
          split at h
          next sid hm =>
            split at h
            next hco =>
              cases h
              exact ⟨h2, hco.2.1, hco.2.2, hm, hco.1, rfl⟩
            next => cases h
          next => cases h
        · rw [if_neg h2] at h
          by_cases h3 : isStr (p.getProp "type".data) "message.complete".data = true
          · right; right; left
            rw [if_pos h3] at h
            split at h
            next sid hm =>
              split at h
              next hco =>
                cases h
                exact ⟨h3, hco.2.1, hco.2.2, hm, hco.1, rfl⟩
              next => cases h
            next => cases h
          · rw [if_neg h3] at h
            by_cases h4 : isStr (p.getProp "type".data) "session.idle".data = true
            · right; right; right
              rw [if_pos h4] at h
              split at h
              next sid hm =>
                split at h
                next hne =>
                  cases h
                  exact ⟨h4, hm, hne, rfl⟩
                next => cases h
              next => cases h
            · rw [if_neg h4] at h
              cases h
  · rintro ⟨p, rfl, hcase⟩
    rcases hcase with hc | hc | hc | hc
    · obtain ⟨h1, st, hst, hsid, hne, hphase⟩ := hc
      obtain ⟨sid, ph⟩ := a
      simp only [] at hsid hne hphase
      rw [deriveSessionActivity.eq_def]
      simp only []
      rw [if_pos h1, hsid, hst]
      show (if sid ≠ [] then some (SessionActivity.mk sid
          (if st = "busy".data ∨ st = "retry".data
            then SessionActivityPhase.busy else SessionActivityPhase.idle))
        else none) = some (SessionActivity.mk sid ph)
      rw [if_pos hne, hphase]
    · obtain ⟨h1, hrole, hfin, hsid, hne, hphase⟩ := hc
      obtain ⟨sid, ph⟩ := a
      simp only [] at hsid hne hphase
      have ht := isStr_eq h1
      rw [deriveSessionActivity.eq_def]
      simp only []
      rw [if_neg (by rw [ht]; decide), if_pos h1, hsid]
      show (if sid ≠ [] ∧
          isStr ((p.getProp "info".data).bind (fun x => x.getProp "role".data))
            "assistant".data = true ∧
          isStr ((p.getProp "info".data).bind (fun x => x.getProp "finish".data))
            "stop".data = true
        then some (SessionActivity.mk sid SessionActivityPhase.cooldown) else none)
        = some (SessionActivity.mk sid ph)
      rw [if_pos ⟨hne, hrole, hfin⟩, hphase]
    · obtain ⟨h1, hrole, hfin, hsid, hne, hphase⟩ := hc
      obtain ⟨sid, ph⟩ := a
      simp only [] at hsid hne hphase
      have ht := isStr_eq h1
      rw [deriveSessionActivity.eq_def]
      simp only []
      rw [if_neg (by rw [ht]; decide), if_neg (by rw [ht]; decide), if_pos h1, hsid]
      show (if sid ≠ [] ∧
          isStr ((p.getProp "info".data).bind (fun x => x.getProp "role".data))
            "assistant".data = true ∧
          isStr ((p.getProp "info".data).bind (fun x => x.getProp "finish".data))
            "stop".data = true
        then some (SessionActivity.mk sid SessionActivityPhase.cooldown) else none)
        = some (SessionActivity.mk sid ph)
      rw [if_pos ⟨hne, hrole, hfin⟩, hphase]
    · obtain ⟨h1, hsid, hne, hphase⟩ := hc
      obtain ⟨sid, ph⟩ := a
      simp only [] at hsid hne hphase
      have ht := isStr_eq h1
      rw [deriveSessionActivity.eq_def]
      simp only []
      rw [if_neg (by rw [ht]; decide), if_neg (by rw [ht]; decide),
        if_neg (by rw [ht]; decide), if_pos h1, hsid]
      show (if sid ≠ [] then some (SessionActivity.mk sid SessionActivityPhase.idle)
        else none) = some (SessionActivity.mk sid ph)
      rw [if_pos hne, hphase]

/-! ## Claim C4: line-level laws of the Global-Scope Wrapper -/

theorem splitOnChar_ne_nil (sep : Char) : ∀ cs, splitOnChar sep cs ≠ []
  | [] => by simp [splitOnChar]
  | c :: rest => by
    simp only [splitOnChar]
    by_cases hc : c = sep
    · rw [if_pos hc]
      simp
    · rw [if_neg hc]
      cases hsp : splitOnChar sep rest with
      | nil => exact absurd hsp (splitOnChar_ne_nil sep rest)
      | cons b bs => simp [consHead]

theorem mem_splitOnChar_not_sep (sep : Char) : ∀ (cs : List Char) (l : List Char),
    l ∈ splitOnChar sep cs → sep ∉ l
  | [], l, h => by
    simp [splitOnChar] at h
    subst h
    simp
  | c :: rest, l, h => by
    simp only [splitOnChar] at h
    by_cases hc : c = sep
    · rw [if_pos hc] at h
      rcases List.mem_cons.mp h with rfl | h2
      · simp
      · exact mem_splitOnChar_not_sep sep rest l h2
    · rw [if_neg hc] at h
      cases hsp : splitOnChar sep rest with
      | nil => exact absurd hsp (splitOnChar_ne_nil sep rest)
      | cons b bs =>
        rw [hsp] at h
        simp only [consHead, List.mem_cons] at h
        rcases h with rfl | h2
        · intro hmem
          rcases List.mem_cons.mp hmem with hh | h3
          · exact hc hh.symm
          · exact mem_splitOnChar_not_sep sep rest b
              (by rw [hsp]; exact List.mem_cons_self b bs) h3
        · exact mem_splitOnChar_not_sep sep rest l
            (by rw [hsp]; exact List.mem_cons_of_mem b h2)

theorem splitOnChar_of_not_mem (sep : Char) : ∀ (x : List Char), sep ∉ x →
    splitOnChar sep x = [x]
  | [], _ => rfl
  | c :: t, h => by
    simp only [splitOnChar]
    rw [if_neg (fun hc => h (by rw [← hc]; exact List.mem_cons_self c t))]
    rw [splitOnChar_of_not_mem sep t (fun hm => h (List.mem_cons_of_mem c hm))]
    rfl

theorem splitOnChar_append_sep (sep : Char) : ∀ (x rest : List Char), sep ∉ x →
    splitOnChar sep (x ++ sep :: rest) = x :: splitOnChar sep rest
  | [], rest, _ => by simp [splitOnChar]
  | c :: t, rest, h => by
    rw [List.cons_append]
    simp only [splitOnChar]
    rw [if_neg (fun hc => h (by rw [← hc]; exact List.mem_cons_self c t))]
    rw [splitOnChar_append_sep sep t rest (fun hm => h (List.mem_cons_of_mem c hm))]
    rfl

theorem splitOnChar_joinNl : ∀ (lines : List (List Char)), lines ≠ [] →
    (∀ l ∈ lines, '\n' ∉ l) → splitOnChar '\n' (joinNl lines) = lines
  | [], h, _ => absurd rfl h
  | [x], _, hl => by
    rw [show joinNl [x] = x from rfl]
    exact splitOnChar_of_not_mem '\n' x (hl x (List.mem_cons_self x []))
  | x :: y :: tl, _, hl => by
    rw [show joinNl (x :: y :: tl) = x ++ '\n' :: joinNl (y :: tl) from rfl]
    rw [splitOnChar_append_sep '\n' x (joinNl (y :: tl)) (hl x (List.mem_cons_self _ _))]
    rw [splitOnChar_joinNl (y :: tl) (by simp) (fun l hm => hl l (List.mem_cons_of_mem x hm))]

theorem filter_neg_filter {α : Type} (p : α → Bool) : ∀ (l : List α),
    (l.filter (fun x => ! p x)).filter p = []
  | [] => rfl
  | x :: t => by
    rcases Bool.eq_false_or_eq_true (p x) with hx | hx
    · simp [List.filter_cons, hx, filter_neg_filter p t]
    · simp [List.filter_cons, hx, filter_neg_filter p t]

theorem hexDigit_ne_newline (n : Nat) : hexDigit n ≠ '\n' := by
  rw [hexDigit.eq_def]
  split <;> decide

theorem escChar_no_newline (c : Char) : '\n' ∉ escChar c := by
  unfold escChar
  split
  · decide
  split
  · decide
  split
  · decide
  split
  · decide
  split
  · decide
  split
  · decide
  split
  · decide
  split
  · intro hmem
    simp only [List.mem_cons, List.not_mem_nil, or_false] at hmem
    rcases hmem with h | h | h | h | h | h <;>
      first
        | exact absurd h (by decide)
        | exact hexDigit_ne_newline _ h.symm
  · next h1 h2 h3 h4 h5 h6 h7 h8 =>
    intro hmem
    have h := List.mem_singleton.mp hmem
    exact h8 (by rw [← h]; decide)

theorem stringifyStr_no_newline (s : List Char) : '\n' ∉ stringifyStr s := by
  intro hmem
  simp only [stringifyStr] at hmem
  rcases List.mem_cons.mp hmem with h | h
  · exact absurd h (by decide)
  rcases List.mem_append.mp h with h2 | h2
  · rcases List.mem_flatMap.mp h2 with ⟨c, _, hc⟩
    exact escChar_no_newline c hc
  · exact absurd (List.mem_singleton.mp h2) (by decide)

theorem stringifyItems_no_nl_of : ∀ (es : JsonItems),
    (∀ e ∈ es.toList, '\n' ∉ e.stringify) → '\n' ∉ es.stringifyItems
  | .nil, _ => by simp [JsonItems.stringifyItems]
  | .cons e .nil, h => by
    rw [show (JsonItems.cons e .nil).stringifyItems = e.stringify from rfl]
    exact h e (List.mem_cons_self _ _)
  | .cons e (.cons e2 tl), h => by
    rw [show (JsonItems.cons e (.cons e2 tl)).stringifyItems
      = e.stringify ++ ',' :: (JsonItems.cons e2 tl).stringifyItems from rfl]
    intro hmem
    rcases List.mem_append.mp hmem with h2 | h2
    · exact h e (List.mem_cons_self _ _) h2
    rcases List.mem_cons.mp h2 with h3 | h3
    · exact absurd h3 (by decide)
    · exact stringifyItems_no_nl_of (.cons e2 tl)
        (fun e' he' => h e' (List.mem_cons_of_mem e he')) h3

theorem stringifyMembers_no_nl_of : ∀ (fs : JsonMembers),
    (∀ kv ∈ fs.toList, '\n' ∉ (kv : List Char × Json).2.stringify) → '\n' ∉ fs.stringifyMembers
  | .nil, _ => by simp [JsonMembers.stringifyMembers]
  | .cons k v .nil, h => by
    rw [show (JsonMembers.cons k v .nil).stringifyMembers
      = stringifyStr k ++ ':' :: v.stringify from rfl]
    intro hmem
    rcases List.mem_append.mp hmem with h2 | h2
    · exact stringifyStr_no_newline k h2
    rcases List.mem_cons.mp h2 with h3 | h3
    · exact absurd h3 (by decide)
    · exact h (k, v) (List.mem_cons_self _ _) h3
  | .cons k v (.cons k2 v2 tl), h => by
    rw [show (JsonMembers.cons k v (.cons k2 v2 tl)).stringifyMembers
      = (stringifyStr k ++ ':' :: v.stringify) ++ ',' ::
        (JsonMembers.cons k2 v2 tl).stringifyMembers from rfl]
    intro hmem
    rcases List.mem_append.mp hmem with h2 | h2
    · rcases List.mem_append.mp h2 with h3 | h3
      · exact stringifyStr_no_newline k h3
      rcases List.mem_cons.mp h3 with h4 | h4
      · exact absurd h4 (by decide)
      · exact h (k, v) (List.mem_cons_self _ _) h4
    rcases List.mem_cons.mp h2 with h3 | h3
    · exact absurd h3 (by decide)
    · exact stringifyMembers_no_nl_of (.cons k2 v2 tl)
        (fun kv hkv => h kv (List.mem_cons_of_mem _ hkv)) h3

theorem stringify_no_nl : ∀ (n : Nat) (j : Json), sizeOf j ≤ n → j.wf = true →
    '\n' ∉ j.stringify := by
  intro n
  induction n with
  | zero =>
    intro j hsize
    exfalso
    cases j <;> simp at hsize
  | succ n ih =>
    intro j hsize hwf
    cases j with
    | null => decide
    | bool b => cases b <;> decide
    | str s => exact stringifyStr_no_newline s
    | num t =>
      intro hmem
      have h2 : (validNum t && t.all isNumChar) = true := hwf
      rw [Bool.and_eq_true] at h2
      have h3 := List.all_eq_true.mp h2.2 '\n' hmem
      exact absurd h3 (by decide)
    | arr es =>
      have hes : es.wfItems = true := hwf
      intro hmem
      rw [show (Json.arr es).stringify = '[' :: es.stringifyItems ++ [']'] from rfl] at hmem
      rcases List.mem_cons.mp hmem with h2 | h2
      · exact absurd h2 (by decide)
      rcases List.mem_append.mp h2 with h3 | h3
      · refine stringifyItems_no_nl_of es (fun e he => ?_) h3
        refine ih e ?_ (wfItems_mem hes e he)
        have hlt := sizeOf_mem_items he
        have hs : sizeOf (Json.arr es) ≤ n + 1 := hsize
        simp at hs
        omega
      · exact absurd (List.mem_singleton.mp h3) (by decide)
    | obj fs =>
      have hfs0 : (fs.wfMembers && decide fs.keys.Nodup) = true := hwf
      rw [Bool.and_eq_true] at hfs0
      intro hmem
      rw [show (Json.obj fs).stringify = '\x7b' :: fs.stringifyMembers ++ ['\x7d'] from rfl] at hmem
      rcases List.mem_cons.mp hmem with h2 | h2
      · exact absurd h2 (by decide)
      rcases List.mem_append.mp h2 with h3 | h3
      · refine stringifyMembers_no_nl_of fs (fun kv hkv => ?_) h3
        refine ih kv.2 ?_ (wfMembers_mem hfs0.1 kv hkv)
        have hlt := sizeOf_mem_members (show (kv.1, kv.2) ∈ fs.toList from hkv)
        have hs : sizeOf (Json.obj fs) ≤ n + 1 := hsize
        simp at hs
        omega
      · exact absurd (List.mem_singleton.mp h3) (by decide)

theorem lookup_wf : ∀ (fs : JsonMembers), fs.wfMembers = true →
    ∀ (k : List Char) (v : Json), fs.lookup k = some v → v.wf = true
  | .nil, _, k, v, h => by cases h
  | .cons k' v' tl, hwf, k, v, h => by
    have h2 : (v'.wf && tl.wfMembers) = true := hwf
    rw [Bool.and_eq_true] at h2
    rw [show (JsonMembers.cons k' v' tl).lookup k
      = if k' = k then some v' else tl.lookup k from rfl] at h
    by_cases hk : k' = k
    · rw [if_pos hk] at h
      cases h
      exact h2.1
    · rw [if_neg hk] at h
      exact lookup_wf tl h2.2 k v h

theorem getProp_wf {p : Json} (hw : p.wf = true) {k : List Char} {v : Json}
    (h : p.getProp k = some v) : v.wf = true := by
  cases p with
  | obj fs =>
    have h2 : (fs.wfMembers && decide fs.keys.Nodup) = true := hw
    rw [Bool.and_eq_true] at h2
    exact lookup_wf fs h2.1 k v h
  | null => simp [Json.getProp] at h
  | bool b => simp [Json.getProp] at h
  | num t => simp [Json.getProp] at h
  | str s => simp [Json.getProp] at h
  | arr es => simp [Json.getProp] at h

theorem parseSseDataPayload_wf {block : List Char} {j : Json}
    (h : parseSseDataPayload block = some j) : j.wf = true := by
  rw [parseSseDataPayload] at h
  split at h
  · cases h
  split at h
  · cases h
  split at h
  · cases h
  split at h
  · cases h
  next parsed hp =>
    have hw := jsonParse_wf hp
    split at h
    · split at h
      next np hnp =>
        split at h
        · cases h
          exact getProp_wf hw hnp
        · cases h
          exact hw
      next hnone =>
        cases h
        exact hw
    · cases h

theorem wrappedGlobalPayload_wf (directory block : List Char) :
    (wrappedGlobalPayload directory block).wf = true := by
  have hP : ((parseSseDataPayload block).getD .null).wf = true := by
    cases hp : parseSseDataPayload block with
    | none => rfl
    | some j => exact parseSseDataPayload_wf hp
  simp [wrappedGlobalPayload, Json.wf, JsonMembers.wfMembers, JsonMembers.keys, hP]

theorem jsTrim_sandwich {c d : Char} (m : List Char) (hc : isJsSpace c = false)
    (hd : isJsSpace d = false) : jsTrim (c :: m ++ [d]) = c :: m ++ [d] := by
  simp [jsTrim, List.dropWhile_cons, hc, hd]

theorem jsTrim_stringify_obj (fs : JsonMembers) :
    jsTrim (Json.obj fs).stringify = (Json.obj fs).stringify := by
  rw [show (Json.obj fs).stringify = '\x7b' :: fs.stringifyMembers ++ ['\x7d'] from rfl]
  exact jsTrim_sandwich fs.stringifyMembers (by decide) (by decide)

theorem getD_map_of_lt {α β : Type} (f : α → β) : ∀ (l : List α) (i : Nat), i < l.length →
    ∀ (d : β) (dA : α), (l.map f).getD i d = f (l.getD i dA)
  | [], i, h, _, _ => by simp at h
  | a :: t, 0, _, d, dA => by
    rw [List.map_cons, List.getD_cons_zero, List.getD_cons_zero]
  | a :: t, i+1, h, d, dA => by
    rw [List.map_cons, List.getD_cons_succ, List.getD_cons_succ]
    exact getD_map_of_lt f t i (by simpa using h) d dA

theorem hasPrefix_data_line (s : List Char) :
    hasPrefixChars "data:".data ("data: ".data ++ s) = true := rfl

theorem data_line_text (s : List Char) :
    stripLeadingJsSpace (("data: ".data ++ s).drop 5) = s := rfl

/-- C4: the Global-Scope Wrapper emits one block per input block in order
(equal lengths, pointwise image); each output block's line list is exactly
the input's non-data lines, unchanged and in order, followed by exactly
one new data line serializing `\x7b directory, payload \x7d`; the data
lines of each output block carry exactly that serialization, and parsing
an output block's data field yields the object with the two keys
`directory` and `payload` (the decoded input payload, or null when
decoding fails). -/
theorem wrap_global_claim (blocks : List (List Char)) (directory : List Char) :
    (wrapSseBlocksAsGlobal blocks directory).length = blocks.length ∧
    ∀ (i : Nat), i < blocks.length →
      splitOnChar '\n' ((wrapSseBlocksAsGlobal blocks directory).getD i [])
        = ((splitOnChar '\n' (blocks.getD i [])).filter
            (fun l => ! hasPrefixChars "data:".data l))
          ++ ["data: ".data ++ (wrappedGlobalPayload directory (blocks.getD i [])).stringify] ∧
      sseDataLineTexts ((wrapSseBlocksAsGlobal blocks directory).getD i [])
        = [(wrappedGlobalPayload directory (blocks.getD i [])).stringify] ∧
      jsonParse (jsTrim (joinNl (sseDataLineTexts
          ((wrapSseBlocksAsGlobal blocks directory).getD i []))))
        = some (wrappedGlobalPayload directory (blocks.getD i [])) := by
  constructor
  · simp [wrapSseBlocksAsGlobal]
  intro i hi
  have hout : (wrapSseBlocksAsGlobal blocks directory).getD i []
      = wrapBlockAsGlobal directory (blocks.getD i []) := by
    rw [wrapSseBlocksAsGlobal]
    exact getD_map_of_lt (wrapBlockAsGlobal directory) blocks i hi [] []
  have hA : splitOnChar '\n' (wrapBlockAsGlobal directory (blocks.getD i []))
      = ((splitOnChar '\n' (blocks.getD i [])).filter
          (fun l => ! hasPrefixChars "data:".data l))
        ++ ["data: ".data ++ (wrappedGlobalPayload directory (blocks.getD i [])).stringify] := by
    rw [wrapBlockAsGlobal]
    apply splitOnChar_joinNl
    · simp
    · intro l hl
      rcases List.mem_append.mp hl with h2 | h2
      · exact mem_splitOnChar_not_sep '\n' (blocks.getD i []) l (List.mem_of_mem_filter h2)
      · obtain rfl := List.mem_singleton.mp h2
        intro hmem
        rcases List.mem_append.mp hmem with h3 | h3
        · exact absurd h3 (by decide)
        · exact stringify_no_nl
            (sizeOf (wrappedGlobalPayload directory (blocks.getD i []))) _ le_rfl
            (wrappedGlobalPayload_wf directory (blocks.getD i [])) h3
  have hB : sseDataLineTexts (wrapBlockAsGlobal directory (blocks.getD i []))
      = [(wrappedGlobalPayload directory (blocks.getD i [])).stringify] := by
    rw [sseDataLineTexts, hA, List.filter_append,
      filter_neg_filter (fun l => hasPrefixChars "data:".data l)]
    rw [List.nil_append]
    rw [show List.filter (fun l => hasPrefixChars "data:".data l)
        ["data: ".data ++ (wrappedGlobalPayload directory (blocks.getD i [])).stringify]
      = ["data: ".data ++ (wrappedGlobalPayload directory (blocks.getD i [])).stringify] from by
        rw [List.filter_cons_of_pos (hasPrefix_data_line _), List.filter_nil]]
    rw [List.map_cons, List.map_nil, data_line_text]
  have hC : jsonParse (jsTrim (joinNl
      [(wrappedGlobalPayload directory (blocks.getD i [])).stringify]))
      = some (wrappedGlobalPayload directory (blocks.getD i [])) := by
    rw [show joinNl [(wrappedGlobalPayload directory (blocks.getD i [])).stringify]
      = (wrappedGlobalPayload directory (blocks.getD i [])).stringify from rfl]
    rw [wrappedGlobalPayload, jsTrim_stringify_obj]
    exact jsonParse_stringify (wrappedGlobalPayload_wf directory (blocks.getD i []))
  rw [hout, hB]
  exact ⟨hA, rfl, hC⟩

/-- Concrete instance of `wrap_global_claim`: one block holding one data
line, wrapped for directory `/dir`. -/
theorem wrap_global_claim_witness :
    0 < (["event: message\ndata: \x7b\"a\":1\x7d".data] : List (List Char)).length ∧
    (splitOnChar '\n' ((wrapSseBlocksAsGlobal
        ["event: message\ndata: \x7b\"a\":1\x7d".data] "/dir".data).getD 0 [])
      = ((splitOnChar '\n' (["event: message\ndata: \x7b\"a\":1\x7d".data].getD 0 [])).filter
          (fun l => ! hasPrefixChars "data:".data l))
        ++ ["data: ".data ++ (wrappedGlobalPayload "/dir".data
            (["event: message\ndata: \x7b\"a\":1\x7d".data].getD 0 [])).stringify] ∧
     sseDataLineTexts ((wrapSseBlocksAsGlobal
        ["event: message\ndata: \x7b\"a\":1\x7d".data] "/dir".data).getD 0 [])
      = [(wrappedGlobalPayload "/dir".data
          (["event: message\ndata: \x7b\"a\":1\x7d".data].getD 0 [])).stringify] ∧
     jsonParse (jsTrim (joinNl (sseDataLineTexts ((wrapSseBlocksAsGlobal
        ["event: message\ndata: \x7b\"a\":1\x7d".data] "/dir".data).getD 0 []))))
      = some (wrappedGlobalPayload "/dir".data
          (["event: message\ndata: \x7b\"a\":1\x7d".data].getD 0 []))) :=
  ⟨by simp,
   (wrap_global_claim ["event: message\ndata: \x7b\"a\":1\x7d".data] "/dir".data).2 0
     (by simp)⟩

/-! ## Claim C1: block algebra of the relay read loop -/

/-- Recognizer for the synthetic event blocks this extension injects
(activity and heartbeat): both start with the fixed text
`event: message\ndata: \x7b"type":"openchamber:`. -/
def isSyntheticBlock (b : List Char) : Bool :=
  hasPrefixChars "event: message\ndata: \x7b\"type\":\"openchamber:".data b

/-- The block-level routing of one emission for a non-wrapped stream:
expand with activity blocks when tracking, verbatim otherwise. -/
def relayOutBlocks (cfg : RelayConfig) (now : Nat) (bs : List (List Char)) :
    List (List Char) :=
  if cfg.tracking then expandSseBlocksWithActivity bs now else bs

theorem splitBlocks_ne_nil : ∀ z, splitBlocks z ≠ []
  | [] => by simp [splitBlocks]
  | [c] => by simp [splitBlocks]
  | c1 :: c2 :: rest => by
    simp only [splitBlocks]
    split
    · simp
    · cases hsp : splitBlocks (c2 :: rest) with
      | nil => exact absurd hsp (splitBlocks_ne_nil (c2 :: rest))
      | cons b bs => simp [consHead]

theorem joinBlocks_cons_of_ne_nil (a : List Char) (l : List (List Char)) (h : l ≠ []) :
    joinBlocks (a :: l) = a ++ '\n' :: '\n' :: joinBlocks l := by
  cases l with
  | nil => exact absurd rfl h
  | cons x xs => rfl

theorem joinBlocks_splitBlocks : ∀ z, joinBlocks (splitBlocks z) = z
  | [] => rfl
  | [c] => rfl
  | c1 :: c2 :: rest => by
    simp only [splitBlocks]
    by_cases h : c1 = '\n' ∧ c2 = '\n'
    · rw [if_pos h]
      rw [joinBlocks_cons_of_ne_nil [] (splitBlocks rest) (splitBlocks_ne_nil rest)]
      rw [joinBlocks_splitBlocks rest]
      obtain ⟨h1, h2⟩ := h
      rw [h1, h2]
      rfl
    · rw [if_neg h]
      cases hsp : splitBlocks (c2 :: rest) with
      | nil => exact absurd hsp (splitBlocks_ne_nil (c2 :: rest))
      | cons b bs =>
        have ih := joinBlocks_splitBlocks (c2 :: rest)
        rw [hsp] at ih
        rw [show consHead c1 (b :: bs) = (c1 :: b) :: bs from rfl]
        cases bs with
        | nil =>
          rw [show joinBlocks [c1 :: b] = c1 :: b from rfl]
          rw [show joinBlocks [b] = b from rfl] at ih
          rw [ih]
        | cons b2 bs2 =>
          rw [joinBlocks_cons_of_ne_nil (c1 :: b) (b2 :: bs2) (by simp)]
          rw [joinBlocks_cons_of_ne_nil b (b2 :: bs2) (by simp)] at ih
          rw [List.cons_append, ih]

theorem splitBlocks_append : ∀ (x y : List Char),
    splitBlocks (x ++ y)
      = (splitBlocks x).dropLast ++ splitBlocks ((splitBlocks x).getLastD [] ++ y)
  | [], y => by simp [splitBlocks]
  | [c], y => rfl
  | c1 :: c2 :: rest, y => by
    by_cases h : c1 = '\n' ∧ c2 = '\n'
    · have e1 : splitBlocks (c1 :: c2 :: rest) = [] :: splitBlocks rest := by
        simp only [splitBlocks]
        rw [if_pos h]
      have e2 : splitBlocks (c1 :: c2 :: (rest ++ y)) = [] :: splitBlocks (rest ++ y) := by
        simp only [splitBlocks]
        rw [if_pos h]
      rw [show (c1 :: c2 :: rest) ++ y = c1 :: c2 :: (rest ++ y) from rfl, e2, e1]
      rw [splitBlocks_append rest y]
      cases hsp : splitBlocks rest with
      | nil => exact absurd hsp (splitBlocks_ne_nil rest)
      | cons r rs => rfl
    · have e1 : splitBlocks (c1 :: c2 :: rest) = consHead c1 (splitBlocks (c2 :: rest)) := by
        simp only [splitBlocks]
        rw [if_neg h]
      have e2 : splitBlocks (c1 :: c2 :: (rest ++ y))
          = consHead c1 (splitBlocks ((c2 :: rest) ++ y)) := by
        simp only [splitBlocks]
        rw [if_neg h]
        rfl
      rw [show (c1 :: c2 :: rest) ++ y = c1 :: c2 :: (rest ++ y) from rfl, e2, e1]
      cases hsp : splitBlocks (c2 :: rest) with
      | nil => exact absurd hsp (splitBlocks_ne_nil (c2 :: rest))
      | cons b bs =>
        cases bs with
        | nil =>
          have hb : b = c2 :: rest := by
            have hj := joinBlocks_splitBlocks (c2 :: rest)
            rw [hsp] at hj
            exact hj
          rw [show consHead c1 [b] = [c1 :: b] from rfl]
          rw [show ([c1 :: b] : List (List Char)).dropLast = [] from rfl]
          rw [show ([c1 :: b] : List (List Char)).getLastD [] = c1 :: b from rfl]
          rw [List.nil_append, hb]
          rw [show (c1 :: c2 :: rest) ++ y = c1 :: c2 :: (rest ++ y) from rfl, e2]
        | cons b2 bs2 =>
          rw [splitBlocks_append (c2 :: rest) y, hsp]
          rfl

theorem getLastD_ne_nil {α : Type} (l : List α) (h : l ≠ []) (d d' : α) :
    l.getLastD d = l.getLastD d' := by
  cases l with
  | nil => exact absurd rfl h
  | cons a t => rfl

theorem dropLast_append_ne {α : Type} : ∀ (A B : List α), B ≠ [] →
    (A ++ B).dropLast = A ++ B.dropLast
  | [], B, h => by simp
  | a :: A, B, h => by
    rw [List.cons_append]
    cases hAB : A ++ B with
    | nil => exact absurd (List.append_eq_nil.mp hAB).2 h
    | cons x xs =>
      rw [show (a :: x :: xs).dropLast = a :: (x :: xs).dropLast from rfl]
      rw [← hAB, dropLast_append_ne A B h, List.cons_append]

theorem getLastD_cons_eq {α : Type} (a : α) (l : List α) (d : α) :
    (a :: l).getLastD d = l.getLastD a := by
  cases l with
  | nil => rfl
  | cons b bs => rfl

theorem getLastD_append_ne {α : Type} : ∀ (A B : List α), B ≠ [] → ∀ (d : α),
    (A ++ B).getLastD d = B.getLastD d
  | [], B, h, d => by simp
  | a :: A, B, h, d => by
    rw [List.cons_append, getLastD_cons_eq, getLastD_append_ne A B h a]
    exact getLastD_ne_nil B h a d

theorem dropLast_append_getLastD {α : Type} : ∀ (l : List α) (d : α), l ≠ [] →
    l.dropLast ++ [l.getLastD d] = l
  | [], d, h => absurd rfl h
  | [x], d, _ => rfl
  | x :: y :: tl, d, _ => by
    rw [show (x :: y :: tl).dropLast = x :: (y :: tl).dropLast from rfl]
    rw [show (x :: y :: tl).getLastD d = (y :: tl).getLastD x from rfl]
    rw [List.cons_append]
    rw [dropLast_append_getLastD (y :: tl) x (by simp)]

theorem splitBlocks_getLastD (z : List Char) :
    splitBlocks ((splitBlocks z).getLastD []) = [(splitBlocks z).getLastD []] := by
  have h := splitBlocks_append z []
  rw [List.append_nil, List.append_nil] at h
  have h2 := dropLast_append_getLastD (splitBlocks z) [] (splitBlocks_ne_nil z)
  have h3 : (splitBlocks z).dropLast ++ [(splitBlocks z).getLastD []]
      = (splitBlocks z).dropLast ++ splitBlocks ((splitBlocks z).getLastD []) := by
    rw [h2]
    exact h
  exact (List.append_cancel_left h3).symm

theorem terminate_append (A B : List (List Char)) :
    terminateBlocks (A ++ B) = terminateBlocks A ++ terminateBlocks B := by
  simp [terminateBlocks]

theorem expand_append (A B : List (List Char)) (now : Nat) :
    expandSseBlocksWithActivity (A ++ B) now
      = expandSseBlocksWithActivity A now ++ expandSseBlocksWithActivity B now := by
  simp [expandSseBlocksWithActivity]

theorem relayOutBlocks_append (cfg : RelayConfig) (now : Nat) (A B : List (List Char)) :
    relayOutBlocks cfg now (A ++ B) = relayOutBlocks cfg now A ++ relayOutBlocks cfg now B := by
  rw [relayOutBlocks, relayOutBlocks, relayOutBlocks]
  cases cfg.tracking with
  | false => simp
  | true => simp [expand_append]

theorem joinBlocks_decomp : ∀ (l : List (List Char)), l ≠ [] →
    joinBlocks l = terminateBlocks l.dropLast ++ l.getLastD []
  | [], h => absurd rfl h
  | [x], _ => by simp [joinBlocks, terminateBlocks]
  | x :: y :: tl, _ => by
    rw [joinBlocks_cons_of_ne_nil x (y :: tl) (by simp)]
    rw [joinBlocks_decomp (y :: tl) (by simp)]
    rw [show (x :: y :: tl).dropLast = x :: (y :: tl).dropLast from rfl]
    rw [show terminateBlocks (x :: (y :: tl).dropLast)
      = (x ++ ['\n', '\n']) ++ terminateBlocks ((y :: tl).dropLast) from by
        simp [terminateBlocks]]
    rw [show (x :: y :: tl).getLastD [] = (y :: tl).getLastD x from rfl]
    rw [getLastD_ne_nil (y :: tl) (by simp) x []]
    simp

theorem relayStep_flatten (cfg : RelayConfig) (now : Nat) (hw : cfg.wrapped = false)
    (buffer chunk : List Char) (hc : chunk ≠ []) :
    (relayStep cfg now buffer chunk).1.flatten
      = terminateBlocks (relayOutBlocks cfg now ((splitBlocks (buffer ++
          (if cfg.tracking then normalizeCRLF chunk else chunk))).dropLast)) ∧
    (relayStep cfg now buffer chunk).2
      = (splitBlocks (buffer ++
          (if cfg.tracking then normalizeCRLF chunk else chunk))).getLastD [] := by
  rw [relayStep, if_neg hc]
  simp only [hw, Bool.false_eq_true, if_false]
  by_cases hcomp : (splitBlocks (buffer ++
      (if cfg.tracking then normalizeCRLF chunk else chunk))).dropLast = []
  · rw [if_pos hcomp]
    constructor
    · rw [hcomp]
      rw [relayOutBlocks]
      cases cfg.tracking with
      | false => rfl
      | true => rfl
    · rfl
  · rw [if_neg hcomp]
    constructor
    · simp [relayOutBlocks]
    · rfl

theorem relayRun_flatten (cfg : RelayConfig) (now : Nat) (hw : cfg.wrapped = false) :
    ∀ (chunks : List (List Char)) (buffer : List Char),
      splitBlocks buffer = [buffer] →
      (relayRun cfg now chunks buffer).1.flatten
        = terminateBlocks (relayOutBlocks cfg now
            ((splitBlocks (buffer ++ ((chunks.map (fun c =>
              if cfg.tracking then normalizeCRLF c else c)).flatten))).dropLast)) ∧
      (relayRun cfg now chunks buffer).2
        = (splitBlocks (buffer ++ ((chunks.map (fun c =>
            if cfg.tracking then normalizeCRLF c else c)).flatten))).getLastD []
  | [], buffer, hb => by
    constructor
    · rw [show (relayRun cfg now [] buffer).1 = [] from rfl]
      rw [List.map_nil, List.flatten_nil, List.append_nil, hb]
      rw [show ([buffer] : List (List Char)).dropLast = [] from rfl]
      rw [relayOutBlocks]
      cases cfg.tracking with
      | false => rfl
      | true => rfl
    · rw [show (relayRun cfg now [] buffer).2 = buffer from rfl]
      rw [List.map_nil, List.flatten_nil, List.append_nil, hb]
      rfl
  | chunk :: rest, buffer, hb => by
    have hr1 : (relayRun cfg now (chunk :: rest) buffer).1
        = (relayStep cfg now buffer chunk).1
          ++ (relayRun cfg now rest ((relayStep cfg now buffer chunk).2)).1 := rfl
    have hr2 : (relayRun cfg now (chunk :: rest) buffer).2
        = (relayRun cfg now rest ((relayStep cfg now buffer chunk).2)).2 := rfl
    by_cases hc : chunk = []
    · have hstep : relayStep cfg now buffer chunk = ([], buffer) := by
        rw [relayStep, if_pos hc]
      have hs1 : (relayStep cfg now buffer chunk).1 = [] := by rw [hstep]
      have hs2 : (relayStep cfg now buffer chunk).2 = buffer := by rw [hstep]
      have ih := relayRun_flatten cfg now hw rest buffer hb
      have hn : (if cfg.tracking then normalizeCRLF chunk else chunk) = [] := by
        rw [hc]
        cases cfg.tracking with
        | false => rfl
        | true => rfl
      constructor
      · rw [hr1, hs1, hs2, List.nil_append]
        simp only [List.map_cons, List.flatten_cons, hn, List.nil_append]
        exact ih.1
      · rw [hr2, hs2]
        simp only [List.map_cons, List.flatten_cons, hn, List.nil_append]
        exact ih.2
    · have hstep := relayStep_flatten cfg now hw buffer chunk hc
      have hb2 : splitBlocks ((relayStep cfg now buffer chunk).2)
          = [(relayStep cfg now buffer chunk).2] := by
        rw [hstep.2]
        exact splitBlocks_getLastD _
      have ih := relayRun_flatten cfg now hw rest ((relayStep cfg now buffer chunk).2) hb2
      have hsplit : buffer ++ (((chunk :: rest).map (fun c =>
            if cfg.tracking then normalizeCRLF c else c)).flatten)
          = (buffer ++ (if cfg.tracking then normalizeCRLF chunk else chunk))
            ++ ((rest.map (fun c => if cfg.tracking then normalizeCRLF c else c)).flatten) := by
        simp only [List.map_cons, List.flatten_cons]
        rw [List.append_assoc]
      constructor
      · rw [hr1, List.flatten_append, ih.1, hstep.1, hstep.2]
        rw [hsplit]
        rw [splitBlocks_append
          (buffer ++ (if cfg.tracking then normalizeCRLF chunk else chunk))
          ((rest.map (fun c => if cfg.tracking then normalizeCRLF c else c)).flatten)]
        rw [dropLast_append_ne _ _ (splitBlocks_ne_nil _)]
        rw [relayOutBlocks_append, terminate_append]
      · rw [hr2, ih.2, hstep.2]
        rw [hsplit]
        rw [splitBlocks_append
          (buffer ++ (if cfg.tracking then normalizeCRLF chunk else chunk))
          ((rest.map (fun c => if cfg.tracking then normalizeCRLF c else c)).flatten)]
        rw [getLastD_append_ne _ _ (splitBlocks_ne_nil _) []]

theorem activity_block_synthetic (a : SessionActivity) (now : Nat) :
    isSyntheticBlock (buildActivityEventBlock a now) = true := rfl

theorem expand_filter_synthetic (now : Nat) : ∀ (bs : List (List Char)),
    (∀ b ∈ bs, isSyntheticBlock b = false) →
    (expandSseBlocksWithActivity bs now).filter (fun b => ! isSyntheticBlock b) = bs
  | [], _ => rfl
  | b :: tl, h => by
    have hb : isSyntheticBlock b = false := h b (List.mem_cons_self _ _)
    have ih := expand_filter_synthetic now tl (fun x hx => h x (List.mem_cons_of_mem b hx))
    rw [show expandSseBlocksWithActivity (b :: tl) now
      = (b :: (match deriveSessionActivity (parseSseDataPayload b) with
          | some a => [buildActivityEventBlock a now]
          | none => [])) ++ expandSseBlocksWithActivity tl now from by
        simp [expandSseBlocksWithActivity]]
    cases hd : deriveSessionActivity (parseSseDataPayload b) with
    | some a =>
      simp [List.filter_cons, List.filter_append, hb, activity_block_synthetic, ih]
    | none =>
      simp [List.filter_cons, hb, ih]

theorem splitBlocks_decomp (z : List Char) :
    z = terminateBlocks ((splitBlocks z).dropLast) ++ (splitBlocks z).getLastD [] := by
  conv_lhs => rw [← joinBlocks_splitBlocks z]
  exact joinBlocks_decomp (splitBlocks z) (splitBlocks_ne_nil z)

/-- C1, counterexample to the claim as stated: on an activity-tracking
stream, the end-of-stream flush sends the residual fragment through the
block pipeline, which appends the `\n\n` terminator; for the single
upstream read `x` the panel receives `x\n\n` (with no synthetic blocks to
remove), so the concatenated relayed bytes do not equal the upstream
bytes even though no fragment is lost. -/
theorem relay_flush_appends_terminator :
    relayMessages ⟨true, false, []⟩ 0 [['x']] = [['x', '\n', '\n']] ∧
    (relayMessages ⟨true, false, []⟩ 0 [['x']]).flatten ≠ ['x'] := by
  constructor
  · rfl
  · decide

/-- C1, amended: for a non-wrapped stream, (i) without activity tracking
the concatenated posted bytes equal the upstream bytes exactly, including
the flushed final fragment; (ii) with activity tracking the concatenated
posted bytes are the per-chunk CRLF-normalized upstream stream cut into
its blocks — all complete blocks, plus the residual fragment when one
remains at stream end — each terminated with a blank line and interleaved
with injected synthetic blocks; (iii) the injected blocks are removable:
filtering them out of an expansion returns exactly the original blocks
whenever no original block itself carries the synthetic prefix; and
(iv) the block cut loses no bytes: the normalized stream equals its
terminated complete blocks followed by the residual fragment. -/
theorem relay_byte_preservation_amended (cfg : RelayConfig) (now : Nat)
    (chunks : List (List Char)) (hw : cfg.wrapped = false) :
    (cfg.tracking = false → (relayMessages cfg now chunks).flatten = chunks.flatten) ∧
    (cfg.tracking = true →
      (relayMessages cfg now chunks).flatten
        = terminateBlocks (expandSseBlocksWithActivity
            (if (splitBlocks ((chunks.map normalizeCRLF).flatten)).getLastD [] = []
             then (splitBlocks ((chunks.map normalizeCRLF).flatten)).dropLast
             else splitBlocks ((chunks.map normalizeCRLF).flatten)) now)) ∧
    (∀ (bs : List (List Char)), (∀ b ∈ bs, isSyntheticBlock b = false) →
      (expandSseBlocksWithActivity bs now).filter (fun b => ! isSyntheticBlock b) = bs) ∧
    ((chunks.map normalizeCRLF).flatten
      = terminateBlocks ((splitBlocks ((chunks.map normalizeCRLF).flatten)).dropLast)
        ++ (splitBlocks ((chunks.map normalizeCRLF).flatten)).getLastD []) := by
  have hrun := relayRun_flatten cfg now hw chunks [] rfl
  have hm : relayMessages cfg now chunks
      = (relayRun cfg now chunks []).1
        ++ relayFinish cfg now ((relayRun cfg now chunks []).2) := rfl
  refine ⟨?_, ?_, fun bs h => expand_filter_synthetic now bs h, splitBlocks_decomp _⟩
  · intro ht
    rw [hm, List.flatten_append, hrun.1, hrun.2]
    simp only [List.nil_append, relayOutBlocks, relayFinish, ht, Bool.false_eq_true,
      if_false]
    simp only [List.map_id']
    by_cases hR : (splitBlocks chunks.flatten).getLastD [] = []
    · rw [if_pos hR]
      conv_rhs => rw [splitBlocks_decomp chunks.flatten]
      rw [hR]
      simp
    · rw [if_neg hR]
      conv_rhs => rw [splitBlocks_decomp chunks.flatten]
      simp
  · intro ht
    rw [hm, List.flatten_append, hrun.1, hrun.2]
    simp only [List.nil_append, relayOutBlocks, relayFinish, ht, hw, Bool.false_eq_true,
      if_false, if_true]
    by_cases hR : (splitBlocks ((chunks.map normalizeCRLF).flatten)).getLastD [] = []
    · rw [if_pos hR, if_pos hR]
      simp
    · rw [if_neg hR, if_neg hR]
      conv_rhs => rw [← dropLast_append_getLastD
        (splitBlocks ((chunks.map normalizeCRLF).flatten)) []
        (splitBlocks_ne_nil ((chunks.map normalizeCRLF).flatten))]
      rw [expand_append, terminate_append]
      simp

/-- Concrete instance of part (i) of the amended C1 statement: a
non-tracking, non-wrapped stream relays its chunks byte for byte. -/
theorem relay_amended_witness :
    (relayMessages ⟨false, false, []⟩ 0 [['a', '\n', '\n', 'b'], ['c']]).flatten
      = ([['a', '\n', '\n', 'b'], ['c']] : List (List Char)).flatten :=
  (relay_byte_preservation_amended ⟨false, false, []⟩ 0
    [['a', '\n', '\n', 'b'], ['c']] rfl).1 rfl
